import Mathlib

/-!
# Verification of the Edmonds–Karp flow engine (`src/task-1/src/edmonds_karp.py`)

This file gives a shallow embedding of the flow engine:

* `_bfs_capacity`  →  `bfsScan` / `bfsLoop` / `bfsCapacity`
* `edmonds_karp`   →  `ekStep` / `ekRun` / `edmondsKarp` (and the
  `verbose`-threading variant `edmondsKarpVerbose`)
* `min_cut_from_residual` → `minCutFromResidual`

Modelling conventions, matching the Python source:

* Node labels are an arbitrary type `α` with decidable equality (Python uses
  hashable labels).
* `defaultdict(int)` tables (`capacity`, `flow`) are modelled as total
  functions `α → α → Int` that default to `0`; `capacity[v][u] += 0` is a
  no-op on this model (it only creates a zero entry in Python, and every
  place the Python code iterates over dict keys is modelled by iterating
  over the node list, which contains all keys produced on valid input).
* Python `set` adjacency is modelled as a duplicate-free list in first
  insertion order.  Python's set iteration order is unspecified; the spec
  (§9) notes this and asks for a fixed tie-break, so we fix insertion order.
  All theorems below are insensitive to this order except concrete
  evaluations, which are chosen so that any order gives the same values.
* Python `while` loops are modelled with explicit fuel; the fuel values
  chosen in `bfsCapacity`, `ekAugment` and `edmondsKarpFull` are proved
  sufficient for the inputs the claims quantify over, so exhausting fuel
  (result `none`) corresponds to a run of the Python code that does not
  return normally.
-/

section Embedding

variable {α : Type} [DecidableEq α]

/-- Pointwise update of a one-argument table (a Python dict assignment). -/
def fupd (f : α → β) (x : α) (y : β) : α → β :=
  fun z => if z = x then y else f z

/-- Pointwise update of a two-argument table (`d[u][v] = c`). -/
def fupd2 (f : α → α → Int) (x y : α) (c : Int) : α → α → Int :=
  fun z w => if z = x ∧ w = y then c else f z w

/-- `s.add x` on a Python set modelled as a duplicate-free list in first
insertion order. -/
def insertOnce (l : List α) (x : α) : List α :=
  if x ∈ l then l else l ++ [x]

/-- The adjacency and capacity construction loop of `edmonds_karp` (lines 46–52):
for each edge `(u, v, c)`: `adj[u].add(v); adj[v].add(u);
capacity[u][v] += c; capacity[v][u] += 0`. -/
def buildStep (st : (α → List α) × (α → α → Int)) (e : α × α × Int) :
    (α → List α) × (α → α → Int) :=
  let adj1 := fupd st.1 e.1 (insertOnce (st.1 e.1) e.2.1)
  let adj2 := fupd adj1 e.2.1 (insertOnce (adj1 e.2.1) e.1)
  let cap1 := fupd2 st.2 e.1 e.2.1 (st.2 e.1 e.2.1 + e.2.2)
  (adj2, cap1)

def buildAdjCap (edges : List (α × α × Int)) : (α → List α) × (α → α → Int) :=
  edges.foldl buildStep (fun _ => [], fun _ _ => 0)

/-- The adjacency table the engine builds from the edge list. -/
def adjOf (edges : List (α × α × Int)) : α → List α := (buildAdjCap edges).1

/-- The initial capacity table (parallel edges sum: `capacity[u][v] += c`). -/
def capInit (edges : List (α × α × Int)) : α → α → Int := (buildAdjCap edges).2

/-- Inner `for v in adj[u]` loop of `_bfs_capacity` (lines 26–31): visit
fresh positive-capacity neighbours, stopping the moment the sink is
discovered.  Returns the updated parent map, the updated queue and the
`found` flag. -/
def bfsScan (cap : α → α → Int) (t u : α) :
    List α → (α → Option α) → List α → (α → Option α) × List α × Bool
  | [], par, q => (par, q, false)
  | v :: vs, par, q =>
    if par v = none ∧ 0 < cap u v then
      let par' := fupd par v (some u)
      if v = t then (par', q, true)
      else bfsScan cap t u vs par' (q ++ [v])
    else bfsScan cap t u vs par q

/-- Outer `while q` loop of `_bfs_capacity` (lines 24–32), with fuel. -/
def bfsLoop (cap : α → α → Int) (adj : α → List α) (t : α) :
    Nat → List α → (α → Option α) → Bool × (α → Option α)
  | 0, _, par => (false, par)
  | _ + 1, [], par => (false, par)
  | f + 1, u :: q, par =>
    let r := bfsScan cap t u (adj u) par q
    if r.2.2 then (true, r.1) else bfsLoop cap adj t f r.2.1 r.1

/-- `_bfs_capacity(parent, capacity, adj, source, sink)` (lines 19–32).
The parent reset loop makes the incoming parent table irrelevant, so the
model starts from the all-`none` table with `parent[source] = source`.
The fuel `nodes.length + 1` covers every dequeue a run on valid input can
make, which is proved below. -/
def bfsCapacity (nodes : List α) (cap : α → α → Int) (adj : α → List α)
    (s t : α) : Bool × (α → Option α) :=
  bfsLoop cap adj t (nodes.length + 1) [s] (fupd (fun _ => none) s (some s))

/-- Path reconstruction loop of `edmonds_karp` (lines 62–69): walk the
parent pointers from `v` back to `source`, producing the edge list in
source-to-sink order (the Python code appends and then reverses).
`none` models the Python loop never reaching `source` (which would not
terminate); BFS invariants below show this cannot happen. -/
def buildPath (par : α → Option α) (s : α) : Nat → α → Option (List (α × α))
  | 0, v => if v = s then some [] else none
  | f + 1, v =>
    if v = s then some []
    else
      match par v with
      | none => none
      | some u => (buildPath par s f u).map (fun p => p ++ [(u, v)])

/-- The bottleneck computed on lines 63–67: `min(float('inf'), caps...)`.
The running minimum starting from infinity equals the minimum of the list
when it is nonempty; the `[]` case never occurs after a successful BFS
(the sink is then distinct from the source), and its value is irrelevant. -/
def bottleneckOf (cap : α → α → Int) (p : List (α × α)) : Int :=
  match p.map (fun e => cap e.1 e.2) with
  | [] => 0
  | c :: cs => cs.foldl min c

/-- One pass of the update loop body (lines 72–76) for a single path edge:
`capacity[u][v] -= b; capacity[v][u] += b; flow[u][v] += b;
flow[v][u] -= b`, in the Python statement order. -/
def applyEdge (cf : (α → α → Int) × (α → α → Int)) (b : Int) (e : α × α) :
    (α → α → Int) × (α → α → Int) :=
  let c1 := fupd2 cf.1 e.1 e.2 (cf.1 e.1 e.2 - b)
  let c2 := fupd2 c1 e.2 e.1 (c1 e.2 e.1 + b)
  let f1 := fupd2 cf.2 e.1 e.2 (cf.2 e.1 e.2 + b)
  let f2 := fupd2 f1 e.2 e.1 (f1 e.2 e.1 - b)
  (c2, f2)

/-- The whole `for u, v in path` update loop (lines 72–76). -/
def applyAug (cap flow : α → α → Int) (b : Int) (p : List (α × α)) :
    (α → α → Int) × (α → α → Int) :=
  p.foldl (fun cf e => applyEdge cf b e) (cap, flow)

/-- One entry of the `history` list (line 78): step index, node sequence of
the path, its edge list, the bottleneck, the cumulative flow after the step
and a snapshot of the residual capacities taken right after the update. -/
structure HistoryStep (α : Type) where
  step : Nat
  path : List α
  path_edges : List (α × α)
  bottleneck : Int
  cumulative_flow : Int
  residual_snapshot : α → α → Int

/-- The mutable state of the `edmonds_karp` main loop (lines 54–59). -/
structure EKState (α : Type) where
  cap : α → α → Int
  flow : α → α → Int
  maxFlow : Int
  history : List (HistoryStep α)
  stepNo : Nat

/-- The state right before the first loop iteration: residual capacities
from the edge list, all-zero flow, zero total flow, empty history. -/
def ekInit (edges : List (α × α × Int)) : EKState α :=
  { cap := capInit edges, flow := fun _ _ => 0, maxFlow := 0,
    history := [], stepNo := 0 }

/-- The body of one loop iteration after a successful BFS (lines 61–78),
given the reconstructed path `p`: compute the bottleneck, apply the
augmentation, add to the total and append the history record (whose
snapshot is the capacity table right after the update, line 78). -/
def applyState (st : EKState α) (t : α) (p : List (α × α)) : EKState α :=
  let b := bottleneckOf st.cap p
  let cf := applyAug st.cap st.flow b p
  { cap := cf.1, flow := cf.2, maxFlow := st.maxFlow + b,
    stepNo := st.stepNo + 1,
    history := st.history ++
      [{ step := st.stepNo + 1, path := p.map Prod.fst ++ [t],
         path_edges := p, bottleneck := b,
         cumulative_flow := st.maxFlow + b, residual_snapshot := cf.1 }] }

/-- Outcome of one iteration of `while _bfs_capacity(...)`:
`done` = BFS found no path and the loop exits with the current state,
`next` = one augmentation was performed, `stuck` = the path-reconstruction
walk would not terminate (impossible on the runs the theorems cover). -/
inductive StepRes (α : Type) where
  | done (st : EKState α)
  | next (st : EKState α)
  | stuck

/-- One iteration of the main loop of `edmonds_karp` (lines 60–78). -/
def ekStep (nodes : List α) (adj : α → List α) (s t : α) (st : EKState α) :
    StepRes α :=
  let r := bfsCapacity nodes st.cap adj s t
  if r.1 = true then
    match buildPath r.2 s nodes.length t with
    | none => .stuck
    | some p => .next (applyState st t p)
  else .done st

/-- The main loop of `edmonds_karp`, with fuel. -/
def ekRun (nodes : List α) (adj : α → List α) (s t : α) :
    Nat → EKState α → Option (EKState α)
  | 0, _ => none
  | f + 1, st =>
    match ekStep nodes adj s t st with
    | .done st' => some st'
    | .next st' => ekRun nodes adj s t f st'
    | .stuck => none

/-- Fuel sufficient for the main loop: one more than the sum of the
nonnegative parts of the initial residual capacities out of the source
(each augmentation drains at least 1 from the source's residual row). -/
def ekFuel (nodes : List α) (edges : List (α × α × Int)) (s : α) : Nat :=
  1 + (nodes.map (fun v => (capInit edges s v).toNat)).sum

/-- `edmonds_karp(nodes, edges, source, sink)`: the terminal loop state. -/
def edmondsKarpFull (nodes : List α) (edges : List (α × α × Int)) (s t : α) :
    Option (EKState α) :=
  ekRun nodes (adjOf edges) s t (ekFuel nodes edges s) (ekInit edges)

/-- `edmonds_karp`'s return value (line 83): `(max_flow, flow, history)`. -/
def edmondsKarp (nodes : List α) (edges : List (α × α × Int)) (s t : α) :
    Option (Int × (α → α → Int) × List (HistoryStep α)) :=
  (edmondsKarpFull nodes edges s t).map (fun st => (st.maxFlow, st.flow, st.history))

/-- The state after exactly `k` augmentations (`none` once the loop has
exited, the reconstruction got stuck, or `k` overshoots); this exposes
every intermediate point of the computation for the invariant claims. -/
def ekIter (nodes : List α) (adj : α → List α) (s t : α)
    (st0 : EKState α) : Nat → Option (EKState α)
  | 0 => some st0
  | k + 1 =>
    (ekIter nodes adj s t st0 k).bind (fun st =>
      match ekStep nodes adj s t st with
      | .next st' => some st'
      | _ => none)

/-- `ekIter` starting from the engine's initial state. -/
def ekIterState (nodes : List α) (edges : List (α × α × Int)) (s t : α)
    (k : Nat) : Option (EKState α) :=
  ekIter nodes (adjOf edges) s t (ekInit edges) k

/-- The data printed by one verbose trace line (line 81): step number,
node sequence of the path, bottleneck and cumulative flow.  The model
records the printed values rather than a formatted string. -/
abbrev TraceLine (α : Type) : Type := Nat × List α × Int × Int

/-- Main loop threading the `verbose` trace: after each augmentation, if
`verbose` is set, the values of line 81 are emitted from the freshly
appended history record. -/
def ekRunV (nodes : List α) (adj : α → List α) (s t : α) (verbose : Bool) :
    Nat → EKState α → List (TraceLine α) → Option (EKState α × List (TraceLine α))
  | 0, _, _ => none
  | f + 1, st, tr =>
    match ekStep nodes adj s t st with
    | .done st' => some (st', tr)
    | .next st' =>
      ekRunV nodes adj s t verbose f st'
        (if verbose then
          tr ++ (st'.history.getLast?.toList.map
            (fun h => (h.step, h.path, h.bottleneck, h.cumulative_flow)))
         else tr)
    | .stuck => none

/-- `edmonds_karp(nodes, edges, source, sink, verbose)` together with the
trace it prints. -/
def edmondsKarpVerbose (nodes : List α) (edges : List (α × α × Int))
    (s t : α) (verbose : Bool) :
    Option ((Int × (α → α → Int) × List (HistoryStep α)) × List (TraceLine α)) :=
  (ekRunV nodes (adjOf edges) s t verbose (ekFuel nodes edges s)
      (ekInit edges) []).map
    (fun r => ((r.1.maxFlow, r.1.flow, r.1.history), r.2))

/-- Reachability loop of `min_cut_from_residual` (lines 91–100): BFS over
strictly positive residual edges, with the visited set as a list in
discovery order.  Neighbour candidates are drawn from the node list, which
contains every key of the residual table on the runs the claims cover. -/
def minCutReach (residual : α → α → Int) (nodes : List α) :
    Nat → List α → List α → List α
  | 0, _, vis => vis
  | _ + 1, [], vis => vis
  | f + 1, u :: q, vis =>
    if u ∈ vis then minCutReach residual nodes f q vis
    else
      minCutReach residual nodes f
        (q ++ nodes.filter (fun v => decide (0 < residual u v ∧ v ∉ vis)))
        (vis ++ [u])

/-- `min_cut_from_residual(nodes, edges, source, residual)` (lines 86–111).
Note the faithful modelling of line 105: `original_caps` is a dict
comprehension, so for parallel edges the LAST listed capacity wins. -/
def minCutFromResidual (nodes : List α) (edges : List (α × α × Int)) (s : α)
    (residual : α → α → Int) :
    List α × List α × List (α × α × Int) × Int :=
  let S := minCutReach residual nodes ((nodes.length + 1) * (nodes.length + 1) + 1) [s] []
  let T := nodes.filter (fun v => decide (v ∉ S))
  let oc : α → α → Option Int :=
    fun u v => (edges.reverse.find? (fun e => decide (e.1 = u ∧ e.2.1 = v))).map (fun e => e.2.2)
  let cut := (S.map (fun u => T.filterMap (fun v => (oc u v).map (fun c => (u, v, c))))).flatten
  (S, T, cut, (cut.map (fun e => e.2.2)).sum)

/-- Input validity per §6 of the spec: duplicate-free node collection,
source and sink members of it, edge endpoints in it (the Python code
raises `KeyError` otherwise), nonnegative integer capacities, and no
self-loops. -/
def Valid (nodes : List α) (edges : List (α × α × Int)) (s t : α) : Prop :=
  nodes.Nodup ∧ s ∈ nodes ∧ t ∈ nodes ∧
    (∀ e ∈ edges, e.1 ∈ nodes ∧ e.2.1 ∈ nodes) ∧
    (∀ e ∈ edges, 0 ≤ e.2.2) ∧ (∀ e ∈ edges, e.1 ≠ e.2.1)

/-- The structural part of validity (no constraint on capacity signs or
self-loops): enough for the engine to run to completion, which is what the
no-validation claims need. -/
def ValidW (nodes : List α) (edges : List (α × α × Int)) (s : α) : Prop :=
  nodes.Nodup ∧ s ∈ nodes ∧ (∀ e ∈ edges, e.1 ∈ nodes ∧ e.2.1 ∈ nodes)

/-- Row sum of a table over the node list (used for flow conservation and
for the termination measure). -/
def rowSum (nodes : List α) (f : α → α → Int) (w : α) : Int :=
  (nodes.map (fun v => f w v)).sum

end Embedding

section BasicLemmas

variable {α : Type} [DecidableEq α]

@[simp] lemma fupd_same (f : α → β) (x : α) (y : β) : fupd f x y x = y := by
  simp [fupd]

lemma fupd_other (f : α → β) {x z : α} (y : β) (h : z ≠ x) :
    fupd f x y z = f z := by
  simp [fupd, h]

lemma fupd2_other (f : α → α → Int) {x y z w : α} (c : Int)
    (h : ¬(z = x ∧ w = y)) : fupd2 f x y c z w = f z w := by
  simp only [fupd2, if_neg h]

@[simp] lemma fupd2_same (f : α → α → Int) (x y : α) (c : Int) :
    fupd2 f x y c x y = c := by
  simp [fupd2]

lemma applyAug_cons (cap flow : α → α → Int) (b : Int) (e : α × α)
    (p : List (α × α)) :
    applyAug cap flow b (e :: p) =
      applyAug (applyEdge (cap, flow) b e).1 (applyEdge (cap, flow) b e).2 b p := by
  simp [applyAug]

end BasicLemmas

section VerboseClaim

variable {α : Type} [DecidableEq α]

/-- The trace sink does not feed back into the computation: dropping the
trace from the verbose loop gives exactly the plain loop. -/
lemma ekRunV_result_eq (nodes : List α) (adj : α → List α) (s t : α)
    (vb : Bool) :
    ∀ (f : Nat) (st : EKState α) (tr : List (TraceLine α)),
      (ekRunV nodes adj s t vb f st tr).map Prod.fst = ekRun nodes adj s t f st := by
  intro f
  induction f with
  | zero => intro st tr; rfl
  | succ f ih =>
    intro st tr
    simp only [ekRunV, ekRun]
    cases h : ekStep nodes adj s t st <;> simp [ih]

/-- Claim C10: the verbose trace is purely observational — the returned
triple `(max_flow, flow, history)` is the same for `verbose=True` and
`verbose=False`, and coincides with the plain (non-tracing) run. -/
theorem c10_verbose_observational (nodes : List α)
    (edges : List (α × α × Int)) (s t : α) (v1 v2 : Bool) :
    (edmondsKarpVerbose nodes edges s t v1).map Prod.fst =
      (edmondsKarpVerbose nodes edges s t v2).map Prod.fst ∧
    (edmondsKarpVerbose nodes edges s t v1).map Prod.fst =
      edmondsKarp nodes edges s t := by
  have key : ∀ vb : Bool, (edmondsKarpVerbose nodes edges s t vb).map Prod.fst =
      edmondsKarp nodes edges s t := by
    intro vb
    simp only [edmondsKarpVerbose, edmondsKarp, edmondsKarpFull, Option.map_map]
    rw [← ekRunV_result_eq nodes (adjOf edges) s t vb (ekFuel nodes edges s)
      (ekInit edges) [], Option.map_map]
    rfl
  exact ⟨(key v1).trans (key v2).symm, key v1⟩

end VerboseClaim

section SkewClaim

variable {α : Type} [DecidableEq α]

/-- Pointwise value of the flow table after one path-edge update: `+b` at
the edge, `-b` at its reverse (both, i.e. no change, on a self pair). -/
lemma applyEdge_flow (c f : α → α → Int) (b : Int) (x y z w : α) :
    (applyEdge (c, f) b (x, y)).2 z w =
      f z w + (if z = x ∧ w = y then b else 0) -
        (if z = y ∧ w = x then b else 0) := by
  show fupd2 (fupd2 f x y (f x y + b)) y x
      (fupd2 f x y (f x y + b) y x - b) z w = _
  by_cases h1 : z = y ∧ w = x
  · obtain ⟨rfl, rfl⟩ := h1
    rw [fupd2_same]
    by_cases h2 : z = w
    · subst h2
      rw [fupd2_same]
      simp
    · have h3 : ¬(z = w ∧ w = z) := fun hh => h2 hh.1
      rw [fupd2_other _ _ h3]
      simp [h3]
  · rw [fupd2_other _ _ h1]
    by_cases h2 : z = x ∧ w = y
    · obtain ⟨rfl, rfl⟩ := h2
      rw [fupd2_same]
      simp [h1]
    · rw [fupd2_other _ _ h2]
      simp [h1, h2]

/-- A single path-edge update keeps the flow table skew-symmetric. -/
lemma skew_applyEdge (c f : α → α → Int) (b : Int) (e : α × α)
    (h : ∀ u v, f u v = -(f v u)) :
    ∀ u v, (applyEdge (c, f) b e).2 u v = -((applyEdge (c, f) b e).2 v u) := by
  intro u v
  rcases e with ⟨x, y⟩
  rw [applyEdge_flow, applyEdge_flow]
  simp only [show (v = x ∧ u = y) ↔ (u = y ∧ v = x) from and_comm,
    show (v = y ∧ u = x) ↔ (u = x ∧ v = y) from and_comm]
  rw [h u v]
  ring

/-- The whole augmentation update keeps the flow table skew-symmetric,
for an arbitrary edge list. -/
lemma skew_applyAug (b : Int) (p : List (α × α)) :
    ∀ c f : α → α → Int, (∀ u v, f u v = -(f v u)) →
      ∀ u v, (applyAug c f b p).2 u v = -((applyAug c f b p).2 v u) := by
  induction p with
  | nil => intro c f h u v; simpa [applyAug] using h u v
  | cons e p ih =>
    intro c f h u v
    rw [applyAug_cons]
    exact ih _ _ (skew_applyEdge c f b e h) u v

lemma ekStep_next_flow {nodes : List α} {adj : α → List α} {s t : α}
    {st st' : EKState α} (h : ekStep nodes adj s t st = .next st') :
    ∃ p, st' = applyState st t p := by
  unfold ekStep at h
  set r := bfsCapacity nodes st.cap adj s t with hr
  by_cases hb : r.1 = true
  · simp only [if_pos hb] at h
    cases hp : buildPath r.2 s nodes.length t with
    | none => rw [hp] at h; exact absurd h (by simp)
    | some p => rw [hp] at h; exact ⟨p, by injection h with h; exact h.symm⟩
  · simp only [if_neg hb] at h; exact absurd h (by simp)

/-- Claim C4: skew symmetry `flow(u,v) = -flow(v,u)` holds for every pair,
at the initial state and after every augmentation step. -/
theorem c4_skew_symmetry (nodes : List α) (edges : List (α × α × Int))
    (s t : α) (k : Nat) (st : EKState α)
    (h : ekIterState nodes edges s t k = some st) :
    ∀ u v, st.flow u v = -(st.flow v u) := by
  induction k generalizing st with
  | zero =>
    simp only [ekIterState, ekIter] at h
    injection h with h
    subst h
    intro u v
    simp [ekInit]
  | succ k ih =>
    simp only [ekIterState, ekIter] at h
    obtain ⟨stk, hk, h2⟩ := Option.bind_eq_some.mp h
    cases hs : ekStep nodes (adjOf edges) s t stk with
    | next st1 =>
      rw [hs] at h2
      simp only [Option.some.injEq] at h2
      subst h2
      obtain ⟨p, rfl⟩ := ekStep_next_flow hs
      have hsk := ih stk hk
      simpa [applyState] using
        skew_applyAug (bottleneckOf stk.cap p) p stk.cap stk.flow hsk
    | done st1 => rw [hs] at h2; exact absurd h2 (by simp)
    | stuck => rw [hs] at h2; exact absurd h2 (by simp)

/-- Witness for C4 on a concrete run: one augmentation on a two-node
graph, checked at the pair `(0, 1)`. -/
theorem c4_skew_symmetry_witness :
    (ekIterState [0, 1] [(0, 1, 5)] 0 1 1).isSome = true ∧
    (∀ st, ekIterState [0, 1] [(0, 1, 5)] 0 1 1 = some st →
      st.flow 0 1 = -(st.flow 1 0)) := by
  refine ⟨by decide, fun st h => c4_skew_symmetry [0, 1] [(0, 1, 5)] 0 1 1 st h 0 1⟩

end SkewClaim

section DegenerateClaim

variable {α : Type} [DecidableEq α]

/-- The neighbour scan never reports the sink and never clears the sink's
parent entry once it is set. -/
lemma bfsScan_not_found {cap : α → α → Int} {t u : α} :
    ∀ (vs : List α) (par : α → Option α) (q : List α), par t ≠ none →
      (bfsScan cap t u vs par q).2.2 = false ∧
        (bfsScan cap t u vs par q).1 t ≠ none := by
  intro vs
  induction vs with
  | nil => intro par q h; exact ⟨rfl, h⟩
  | cons v vs ih =>
    intro par q h
    simp only [bfsScan]
    by_cases hc : par v = none ∧ 0 < cap u v
    · have hvt : v ≠ t := fun hvt => h (hvt ▸ hc.1)
      rw [if_pos hc, if_neg hvt]
      exact ih _ _ (by rw [fupd_other _ _ (Ne.symm hvt)]; exact h)
    · rw [if_neg hc]
      exact ih _ _ h

/-- The BFS loop never reports `True` when the sink's parent entry is
already set when it starts (in particular when sink = source). -/
lemma bfsLoop_not_found {cap : α → α → Int} {adj : α → List α} {t : α} :
    ∀ (f : Nat) (q : List α) (par : α → Option α), par t ≠ none →
      (bfsLoop cap adj t f q par).1 = false := by
  intro f
  induction f with
  | zero => intro q par _; rfl
  | succ f ih =>
    intro q par h
    cases q with
    | nil => rfl
    | cons u q =>
      simp only [bfsLoop]
      have hs := @bfsScan_not_found α _ cap t u (adj u) par q h
      rw [hs.1]
      simp only [if_neg (Bool.false_ne_true)]
      exact ih _ _ hs.2

/-- Claim C8: with `source == sink` the engine returns immediately with
total flow 0, the all-zero flow table and an empty history (true for every
input, valid or not: the BFS can never rediscover the already-visited
source, so the first BFS call reports no path). -/
theorem c8_source_eq_sink (nodes : List α) (edges : List (α × α × Int))
    (s : α) :
    edmondsKarp nodes edges s s = some (0, fun _ _ => (0 : Int), []) := by
  have hpar : (fupd (fun _ => (none : Option α)) s (some s)) s ≠ none := by
    simp
  have hfalse :
      (bfsCapacity nodes (ekInit (α := α) edges).cap (adjOf edges) s s).1 = false :=
    bfsLoop_not_found _ _ _ hpar
  have hstep : ekStep nodes (adjOf edges) s s (ekInit (α := α) edges) =
      .done (ekInit edges) := by
    unfold ekStep
    rw [if_neg (by rw [hfalse]; exact Bool.false_ne_true)]
  have hrun : ∀ f : Nat, ekRun nodes (adjOf edges) s s (f + 1) (ekInit (α := α) edges) =
      some (ekInit edges) := by
    intro f
    simp only [ekRun, hstep]
  have : edmondsKarpFull nodes edges s s = some (ekInit edges) := by
    unfold edmondsKarpFull ekFuel
    rw [Nat.add_comm 1 _]
    exact hrun _
  simp [edmondsKarp, this, ekInit]

end DegenerateClaim

section EvalClaims

/-- Claim C1 (refuting evaluation): on the valid input with the parallel
edges `(0,1,2)` and `(0,1,3)`, the engine's total flow is `5` (capacities
sum), but min-cut extraction on the terminal residual state reports cut
capacity `3`: the `original_caps` dict comprehension on line 105 keeps only
the last capacity listed for the ordered pair, so the claimed equality
`cut_capacity == total_flow` fails in the presence of parallel edges. -/
theorem c1_parallel_edges_cut_mismatch :
    (edmondsKarpFull [0, 1] [(0, 1, 2), (0, 1, 3)] 0 1).map
        (fun st => (st.maxFlow,
          (minCutFromResidual [0, 1] [(0, 1, 2), (0, 1, 3)] 0 st.cap).2.2.2)) =
      some (5, 3) ∧
    Valid [0, 1] [(0, 1, 2), (0, 1, 3)] 0 1 ∧ (5 : Int) ≠ 3 := by
  exact ⟨by decide, by unfold Valid; decide, by decide⟩

/-- Claim C2 (counterexample): the input below contains a negative-capacity
edge `(0,2,-1)` and a self-loop `(2,2,7)`, yet `edmonds_karp` does not
reject it: it computes total flow `5` and produces a one-step history, so
the run is not free of "partial work" and no eager `InvalidInput`
detection exists. -/
theorem c2_counterexample_no_validation :
    (edmondsKarp [0, 1, 2] [(0, 1, 5), (0, 2, -1), (2, 2, 7)] 0 1).map
        (fun r => (r.1, r.2.2.length)) = some (5, 1) ∧
    (5 : Int) ≠ 0 ∧ (1 : Nat) ≠ 0 := by
  exact ⟨by decide, by decide, by decide⟩

/-- Claim C3 (counterexample): on the valid input with the opposite
directed edges `(0,1,1)` and `(1,0,1)`, source `1` and sink `0`, the
returned flow value of the original edge `(0,1)` is `-1`, violating the
claimed bound `0 ≤ flow(u,v)`: the table stores net flow, and pushing along
`(1,0)` drives `flow[0][1]` negative. -/
theorem c3_counterexample_reverse_edge :
    (edmondsKarp [0, 1] [(0, 1, 1), (1, 0, 1)] 1 0).map
        (fun r => r.2.1 0 1) = some (-1) ∧
    Valid [0, 1] [(0, 1, 1), (1, 0, 1)] 1 0 ∧ ¬((0 : Int) ≤ -1) := by
  exact ⟨by decide, by unfold Valid; decide, by decide⟩

end EvalClaims

section PathLemmas

variable {α : Type} [DecidableEq α]

/-- `chainOK a p b`: the edge list `p` links consecutively from `a` to `b`
(the shape the reconstruction loop produces). -/
def chainOK : α → List (α × α) → α → Prop
  | a, [], b => a = b
  | a, e :: p, b => e.1 = a ∧ chainOK e.2 p b

lemma chainOK_append_singleton {a b u v : α} :
    ∀ p : List (α × α), chainOK a (p ++ [(u, v)]) b ↔ chainOK a p u ∧ v = b := by
  intro p
  induction p generalizing a with
  | nil =>
    constructor
    · rintro ⟨rfl, rfl⟩; exact ⟨rfl, rfl⟩
    · rintro ⟨rfl, rfl⟩; exact ⟨rfl, rfl⟩
  | cons e p ih =>
    constructor
    · rintro ⟨he, hc⟩
      exact ⟨⟨he, (ih.mp hc).1⟩, (ih.mp hc).2⟩
    · rintro ⟨⟨he, hc⟩, hv⟩
      exact ⟨he, ih.mpr ⟨hc, hv⟩⟩

@[simp] lemma buildPath_self (par : α → Option α) (s : α) (f : Nat) :
    buildPath par s f s = some [] := by
  cases f <;> simp [buildPath]

lemma buildPath_succ_none {par : α → Option α} {s v : α} (hv : v ≠ s)
    (hpar : par v = none) (f : Nat) : buildPath par s (f + 1) v = none := by
  rw [buildPath, if_neg hv, hpar]

lemma buildPath_succ_some {par : α → Option α} {s v u : α} (hv : v ≠ s)
    (hpar : par v = some u) (f : Nat) :
    buildPath par s (f + 1) v =
      (buildPath par s f u).map (fun p => p ++ [(u, v)]) := by
  rw [buildPath, if_neg hv, hpar]

lemma buildPath_zero_ne {par : α → Option α} {s v : α} (hv : v ≠ s) :
    buildPath par s 0 v = none := by
  rw [buildPath, if_neg hv]

/-- Destructor for a successful walk at successor fuel ending away from the
source. -/
lemma buildPath_succ_elim {par : α → Option α} {s v : α} {f : Nat}
    {p : List (α × α)} (hv : v ≠ s)
    (h : buildPath par s (f + 1) v = some p) :
    ∃ u q, par v = some u ∧ buildPath par s f u = some q ∧ p = q ++ [(u, v)] := by
  cases hpar : par v with
  | none => rw [buildPath_succ_none hv hpar] at h; exact absurd h (by simp)
  | some u =>
    rw [buildPath_succ_some hv hpar] at h
    obtain ⟨q, hq, hpq⟩ := Option.map_eq_some'.mp h
    exact ⟨u, q, rfl, hq, hpq.symm⟩

lemma buildPath_length_le (par : α → Option α) (s : α) :
    ∀ (f : Nat) (v : α) (p : List (α × α)),
      buildPath par s f v = some p → p.length ≤ f := by
  intro f
  induction f with
  | zero =>
    intro v p h
    rcases Classical.em (v = s) with hv | hv
    · subst hv; rw [buildPath_self] at h; injection h with h; rw [← h]; simp
    · rw [buildPath_zero_ne hv] at h; exact absurd h (by simp)
  | succ f ih =>
    intro v p h
    rcases Classical.em (v = s) with hv | hv
    · subst hv; rw [buildPath_self] at h; injection h with h; rw [← h]; simp
    · obtain ⟨u, q, hpar, hq, rfl⟩ := buildPath_succ_elim hv h
      have := ih u q hq
      simp only [List.length_append, List.length_cons, List.length_nil]
      omega

lemma buildPath_mono (par : α → Option α) (s : α) :
    ∀ (f : Nat) (v : α) (p : List (α × α)),
      buildPath par s f v = some p → buildPath par s (f + 1) v = some p := by
  intro f
  induction f with
  | zero =>
    intro v p h
    rcases Classical.em (v = s) with hv | hv
    · subst hv; rw [buildPath_self] at h; injection h with h; rw [← h]; simp
    · rw [buildPath_zero_ne hv] at h; exact absurd h (by simp)
  | succ f ih =>
    intro v p h
    rcases Classical.em (v = s) with hv | hv
    · subst hv; rw [buildPath_self] at h; injection h with h; rw [← h]; simp
    · obtain ⟨u, q, hpar, hq, rfl⟩ := buildPath_succ_elim hv h
      rw [buildPath_succ_some hv hpar, ih u q hq]
      rfl

lemma buildPath_mono_le (par : α → Option α) (s : α) {f f' : Nat}
    (hle : f ≤ f') {v : α} {p : List (α × α)}
    (h : buildPath par s f v = some p) : buildPath par s f' v = some p := by
  induction hle with
  | refl => exact h
  | step _ ih => exact buildPath_mono par s _ v p ih

lemma buildPath_det (par : α → Option α) (s : α) {f f' : Nat} {v : α}
    {p p' : List (α × α)} (h : buildPath par s f v = some p)
    (h' : buildPath par s f' v = some p') : p = p' := by
  have h1 := buildPath_mono_le par s (Nat.le_max_left f f') h
  have h2 := buildPath_mono_le par s (Nat.le_max_right f f') h'
  rw [h1] at h2
  injection h2

/-- Structure of a successful parent walk: it is a chain from the source,
and every edge on it is a recorded parent pointer of a non-source node. -/
lemma buildPath_chain (par : α → Option α) (s : α) :
    ∀ (f : Nat) (v : α) (p : List (α × α)), buildPath par s f v = some p →
      chainOK s p v ∧ ∀ e ∈ p, par e.2 = some e.1 ∧ e.2 ≠ s := by
  intro f
  induction f with
  | zero =>
    intro v p h
    rcases Classical.em (v = s) with hv | hv
    · subst hv; rw [buildPath_self] at h; injection h with h; rw [← h]
      exact ⟨rfl, by simp⟩
    · rw [buildPath_zero_ne hv] at h; exact absurd h (by simp)
  | succ f ih =>
    intro v p h
    rcases Classical.em (v = s) with hv | hv
    · subst hv; rw [buildPath_self] at h; injection h with h; rw [← h]
      exact ⟨rfl, by simp⟩
    · obtain ⟨u, q, hpar, hq, rfl⟩ := buildPath_succ_elim hv h
      obtain ⟨hchain, hmem⟩ := ih u q hq
      refine ⟨(chainOK_append_singleton q).mpr ⟨hchain, rfl⟩, ?_⟩
      intro e he
      rcases List.mem_append.mp he with he | he
      · exact hmem e he
      · simp only [List.mem_singleton] at he
        subst he
        exact ⟨hpar, hv⟩

/-- Every edge on a successful walk has its own successful walk to its
target, no longer than the whole. -/
lemma buildPath_mem_prefix (par : α → Option α) (s : α) :
    ∀ (f : Nat) (v : α) (p : List (α × α)), buildPath par s f v = some p →
      ∀ e ∈ p, ∃ r, buildPath par s f e.2 = some r ∧ r.length ≤ p.length := by
  intro f
  induction f with
  | zero =>
    intro v p h
    rcases Classical.em (v = s) with hv | hv
    · subst hv; rw [buildPath_self] at h; injection h with h; rw [← h]; simp
    · rw [buildPath_zero_ne hv] at h; exact absurd h (by simp)
  | succ f ih =>
    intro v p h
    have horig := h
    rcases Classical.em (v = s) with hv | hv
    · subst hv; rw [buildPath_self] at h; injection h with h; rw [← h]; simp
    · obtain ⟨u, q, hpar, hq, rfl⟩ := buildPath_succ_elim hv h
      intro e he
      rcases List.mem_append.mp he with he | he
      · obtain ⟨r, hr, hlen⟩ := ih u q hq e he
        refine ⟨r, buildPath_mono par s f _ r hr, ?_⟩
        simp only [List.length_append, List.length_cons, List.length_nil]
        omega
      · simp only [List.mem_singleton] at he
        subst he
        exact ⟨q ++ [(u, v)], horig, le_refl _⟩

/-- The node sequence of a successful walk never repeats and never revisits
the source: the walk stops at its first arrival at the source, and the
parent pointers form a function, so a repeat would contradict determinism. -/
lemma buildPath_nodup (par : α → Option α) (s : α) :
    ∀ (f : Nat) (v : α) (p : List (α × α)), buildPath par s f v = some p →
      (p.map Prod.snd).Nodup ∧ s ∉ p.map Prod.snd := by
  intro f
  induction f with
  | zero =>
    intro v p h
    rcases Classical.em (v = s) with hv | hv
    · subst hv; rw [buildPath_self] at h; injection h with h; rw [← h]; simp
    · rw [buildPath_zero_ne hv] at h; exact absurd h (by simp)
  | succ f ih =>
    intro v p h
    have horig := h
    rcases Classical.em (v = s) with hv | hv
    · subst hv; rw [buildPath_self] at h; injection h with h; rw [← h]; simp
    · obtain ⟨u, q, hpar, hq, rfl⟩ := buildPath_succ_elim hv h
      obtain ⟨hnd, hs⟩ := ih u q hq
      have hvq : v ∉ q.map Prod.snd := by
        intro hmem
        obtain ⟨e, he, he2⟩ := List.mem_map.mp hmem
        obtain ⟨r, hr, hlen⟩ := buildPath_mem_prefix par s f u q hq e he
        rw [he2] at hr
        have := buildPath_det par s (buildPath_mono par s f v r hr) horig
        subst this
        have hlen2 : q.length + 1 ≤ q.length := by simpa using hlen
        omega
      constructor
      · simp only [List.map_append, List.map_cons, List.map_nil]
        exact List.Nodup.append hnd (List.nodup_singleton v)
          (by intro a ha hav; rw [List.mem_singleton] at hav
              exact hvq (hav ▸ ha))
      · simp only [List.map_append, List.map_cons, List.map_nil,
          List.mem_append, List.mem_singleton]
        rintro (hmem | rfl)
        · exact hs hmem
        · exact hv rfl

end PathLemmas

section ApplyLemmas

variable {α : Type} [DecidableEq α]

/-- Pointwise value of the capacity table after one path-edge update:
`-b` at the edge, `+b` at its reverse (no change on a self pair). -/
lemma applyEdge_cap (c f : α → α → Int) (b : Int) (x y z w : α) :
    (applyEdge (c, f) b (x, y)).1 z w =
      c z w - (if z = x ∧ w = y then b else 0) +
        (if z = y ∧ w = x then b else 0) := by
  show fupd2 (fupd2 c x y (c x y - b)) y x
      (fupd2 c x y (c x y - b) y x + b) z w = _
  by_cases h1 : z = y ∧ w = x
  · obtain ⟨rfl, rfl⟩ := h1
    rw [fupd2_same]
    by_cases h2 : z = w
    · subst h2
      rw [fupd2_same]
      simp
    · have h3 : ¬(z = w ∧ w = z) := fun hh => h2 hh.1
      rw [fupd2_other _ _ h3]
      simp [h3]
  · rw [fupd2_other _ _ h1]
    by_cases h2 : z = x ∧ w = y
    · obtain ⟨rfl, rfl⟩ := h2
      rw [fupd2_same]
      simp [h1]
    · rw [fupd2_other _ _ h2]
      simp [h1, h2]

/-- Number of occurrences of an ordered pair in a path (a `List.count`
pinned to propositional equality, avoiding `BEq` instance mismatches). -/
def pcount (p : List (α × α)) (e : α × α) : Nat :=
  p.countP (fun e' => decide (e' = e))

lemma pcount_nil (e : α × α) : pcount ([] : List (α × α)) e = 0 := rfl

lemma pcount_cons (e' : α × α) (p : List (α × α)) (e : α × α) :
    pcount (e' :: p) e = pcount p e + if e' = e then 1 else 0 := by
  simp [pcount, List.countP_cons]

lemma pcount_eq_zero {p : List (α × α)} {e : α × α} (h : e ∉ p) :
    pcount p e = 0 := by
  rw [pcount, List.countP_eq_zero]
  intro a ha
  simp only [decide_eq_true_eq]
  intro hae
  exact h (hae ▸ ha)

lemma pcount_eq_one {p : List (α × α)} {e : α × α} (hnd : p.Nodup)
    (he : e ∈ p) : pcount p e = 1 := by
  induction p with
  | nil => exact absurd he (by simp)
  | cons a rest ih =>
    rw [List.nodup_cons] at hnd
    rw [pcount_cons]
    rcases List.mem_cons.mp he with rfl | he'
    · rw [pcount_eq_zero hnd.1, if_pos rfl]
    · have hae : a ≠ e := fun hh => hnd.1 (hh ▸ he')
      rw [ih hnd.2 he', if_neg hae]

/-- Exact pointwise value of the flow table after applying a whole path:
`+b` per occurrence of the pair, `-b` per occurrence of the reverse pair. -/
lemma applyAug_flow_count (b : Int) :
    ∀ (p : List (α × α)) (cap flow : α → α → Int) (z w : α),
      (applyAug cap flow b p).2 z w =
        flow z w + b * ((pcount p (z, w) : Int) - (pcount p (w, z) : Int)) := by
  intro p
  induction p with
  | nil => intro cap flow z w; simp [applyAug, pcount_nil]
  | cons e p ih =>
    intro cap flow z w
    rcases e with ⟨x, y⟩
    rw [applyAug_cons, ih, applyEdge_flow, pcount_cons, pcount_cons]
    have hc1 : (z = x ∧ w = y) ↔ ((x, y) = (z, w)) := by
      rw [Prod.mk.injEq]
      exact ⟨fun h => ⟨h.1.symm, h.2.symm⟩, fun h => ⟨h.1.symm, h.2.symm⟩⟩
    have hc2 : (z = y ∧ w = x) ↔ ((x, y) = (w, z)) := by
      rw [Prod.mk.injEq]
      exact ⟨fun h => ⟨h.2.symm, h.1.symm⟩, fun h => ⟨h.2.symm, h.1.symm⟩⟩
    simp only [hc1, hc2]
    by_cases hzw : (x, y) = (z, w) <;> by_cases hwz : (x, y) = (w, z) <;>
      simp [hzw, hwz, Prod.mk.injEq, eq_comm, and_comm] <;> (try push_cast) <;>
      first | ring1 | (split_ifs <;> ring1)

/-- Exact pointwise value of the capacity table after applying a whole
path: `-b` per occurrence of the pair, `+b` per reverse occurrence. -/
lemma applyAug_cap_count (b : Int) :
    ∀ (p : List (α × α)) (cap flow : α → α → Int) (z w : α),
      (applyAug cap flow b p).1 z w =
        cap z w - b * ((pcount p (z, w) : Int) - (pcount p (w, z) : Int)) := by
  intro p
  induction p with
  | nil => intro cap flow z w; simp [applyAug, pcount_nil]
  | cons e p ih =>
    intro cap flow z w
    rcases e with ⟨x, y⟩
    rw [applyAug_cons, ih, applyEdge_cap, pcount_cons, pcount_cons]
    have hc1 : (z = x ∧ w = y) ↔ ((x, y) = (z, w)) := by
      rw [Prod.mk.injEq]
      exact ⟨fun h => ⟨h.1.symm, h.2.symm⟩, fun h => ⟨h.1.symm, h.2.symm⟩⟩
    have hc2 : (z = y ∧ w = x) ↔ ((x, y) = (w, z)) := by
      rw [Prod.mk.injEq]
      exact ⟨fun h => ⟨h.2.symm, h.1.symm⟩, fun h => ⟨h.2.symm, h.1.symm⟩⟩
    simp only [hc1, hc2]
    by_cases hzw : (x, y) = (z, w) <;> by_cases hwz : (x, y) = (w, z) <;>
      simp [hzw, hwz, Prod.mk.injEq, eq_comm, and_comm] <;> (try push_cast) <;>
      first | ring1 | (split_ifs <;> ring1)

/-- On a chain whose targets repeat neither themselves nor the start node,
edges are distinct, non-self, and no edge occurs with its reverse. -/
lemma chain_edge_props :
    ∀ (p : List (α × α)) (a c : α), chainOK a p c →
      (p.map Prod.snd).Nodup → a ∉ p.map Prod.snd →
      p.Nodup ∧ ∀ e ∈ p, e.1 ≠ e.2 ∧ (e.2, e.1) ∉ p := by
  intro p
  induction p with
  | nil => intro a c _ _ _; exact ⟨List.nodup_nil, by simp⟩
  | cons e rest ih =>
    intro a c hchain hnd hnm
    rcases e with ⟨x, y⟩
    obtain ⟨hx, hrest⟩ := hchain
    subst hx
    simp only [List.map_cons, List.nodup_cons] at hnd
    obtain ⟨hyrest, hndrest⟩ := hnd
    simp only [List.map_cons, List.mem_cons, not_or] at hnm
    obtain ⟨hay, harest⟩ := hnm
    obtain ⟨hndr, hprops⟩ := ih y c hrest hndrest (by
      intro hy; exact hyrest hy)
    constructor
    · rw [List.nodup_cons]
      refine ⟨fun hmem => hyrest ?_, hndr⟩
      exact List.mem_map.mpr ⟨_, hmem, rfl⟩
    · intro e' he'
      rcases List.mem_cons.mp he' with he' | he'
      · subst he'
        refine ⟨fun h => hay h, ?_⟩
        intro hmem
        rcases List.mem_cons.mp hmem with hh | hh
        · have : y = x := ((Prod.mk.injEq _ _ _ _).mp hh).1
          exact hay this.symm
        · exact harest (List.mem_map.mpr ⟨_, hh, rfl⟩)
      · obtain ⟨hne, hsw⟩ := hprops e' he'
        refine ⟨hne, ?_⟩
        intro hmem
        rcases List.mem_cons.mp hmem with hh | hh
        · have h2 : e'.2 = x := ((Prod.mk.injEq _ _ _ _).mp hh).1
          exact harest (h2 ▸ List.mem_map.mpr ⟨_, he', rfl⟩)
        · exact hsw hh

/-- On a chain with nodup targets avoiding the start node, each edge occurs
exactly once and its reverse never occurs. -/
lemma chain_counts {p : List (α × α)} {a c u v : α} (hchain : chainOK a p c)
    (hnd : (p.map Prod.snd).Nodup) (hnm : a ∉ p.map Prod.snd)
    (he : (u, v) ∈ p) : pcount p (u, v) = 1 ∧ pcount p (v, u) = 0 := by
  obtain ⟨hndp, hprops⟩ := chain_edge_props p a c hchain hnd hnm
  exact ⟨pcount_eq_one hndp he, pcount_eq_zero ((hprops (u, v) he).2)⟩

/-- Flow after augmenting along a reconstructed path, at a path edge. -/
lemma applyAug_flow_mem {p : List (α × α)} {a c u v : α} (b : Int)
    (cap flow : α → α → Int) (hchain : chainOK a p c)
    (hnd : (p.map Prod.snd).Nodup) (hnm : a ∉ p.map Prod.snd)
    (he : (u, v) ∈ p) :
    (applyAug cap flow b p).2 u v = flow u v + b ∧
    (applyAug cap flow b p).2 v u = flow v u - b ∧
    (applyAug cap flow b p).1 u v = cap u v - b ∧
    (applyAug cap flow b p).1 v u = cap v u + b := by
  obtain ⟨h1, h0⟩ := chain_counts hchain hnd hnm he
  have hvu1 : pcount p (v, u) = 0 := h0
  refine ⟨?_, ?_, ?_, ?_⟩ <;>
    simp [applyAug_flow_count, applyAug_cap_count, h1, hvu1] <;> ring

/-- Flow and capacity are unchanged at pairs not touched by the path. -/
lemma applyAug_not_mem {p : List (α × α)} {u v : α} (b : Int)
    (cap flow : α → α → Int) (h1 : (u, v) ∉ p) (h2 : (v, u) ∉ p) :
    (applyAug cap flow b p).2 u v = flow u v ∧
    (applyAug cap flow b p).1 u v = cap u v := by
  have c1 : pcount p (u, v) = 0 := pcount_eq_zero h1
  have c2 : pcount p (v, u) = 0 := pcount_eq_zero h2
  constructor <;> simp [applyAug_flow_count, applyAug_cap_count, c1, c2]

lemma list_sum_map_add (l : List α) (f g : α → Int) :
    (l.map (fun x => f x + g x)).sum = (l.map f).sum + (l.map g).sum := by
  induction l with
  | nil => simp
  | cons x l ih => simp [ih]; ring

lemma list_sum_map_sub (l : List α) (f g : α → Int) :
    (l.map (fun x => f x - g x)).sum = (l.map f).sum - (l.map g).sum := by
  induction l with
  | nil => simp
  | cons x l ih => simp [ih]; ring

lemma list_sum_ite_of_not_mem {l : List α} {y : α} (h : y ∉ l) (c : Int) :
    (l.map (fun v => if v = y then c else 0)).sum = 0 := by
  induction l with
  | nil => simp
  | cons x l ih =>
    simp only [List.mem_cons, not_or] at h
    have hxy : x ≠ y := fun hh => h.1 hh.symm
    simp [hxy, ih h.2]

lemma list_sum_ite_of_nodup {l : List α} {y : α} (hnd : l.Nodup)
    (hy : y ∈ l) (c : Int) :
    (l.map (fun v => if v = y then c else 0)).sum = c := by
  induction l with
  | nil => exact absurd hy (by simp)
  | cons x l ih =>
    rw [List.nodup_cons] at hnd
    rcases List.mem_cons.mp hy with rfl | hy'
    · simp [list_sum_ite_of_not_mem hnd.1 c]
    · have hxy : x ≠ y := fun hh => hnd.1 (hh ▸ hy')
      simp [hxy, ih hnd.2 hy']

/-- Row sum of the flow table after a single edge update. -/
lemma rowSum_applyEdge_flow (nodes : List α) (hnd : nodes.Nodup)
    (cap flow : α → α → Int) (b : Int) {x y : α} (hx : x ∈ nodes)
    (hy : y ∈ nodes) (w : α) :
    rowSum nodes (applyEdge (cap, flow) b (x, y)).2 w =
      rowSum nodes flow w + (if w = x then b else 0) -
        (if w = y then b else 0) := by
  unfold rowSum
  have hmap : (nodes.map (fun v => (applyEdge (cap, flow) b (x, y)).2 w v)) =
      nodes.map (fun v => flow w v + (if w = x ∧ v = y then b else 0) -
        (if w = y ∧ v = x then b else 0)) := by
    apply List.map_congr_left
    intro v _
    rw [applyEdge_flow]
  rw [hmap, list_sum_map_sub, list_sum_map_add]
  have s1 : (nodes.map (fun v => if w = x ∧ v = y then b else 0)).sum =
      if w = x then b else 0 := by
    by_cases hwx : w = x
    · simp only [hwx, true_and, if_pos rfl]
      exact list_sum_ite_of_nodup hnd hy b
    · simp [hwx]
  have s2 : (nodes.map (fun v => if w = y ∧ v = x then b else 0)).sum =
      if w = y then b else 0 := by
    by_cases hwy : w = y
    · simp only [hwy, true_and, if_pos rfl]
      exact list_sum_ite_of_nodup hnd hx b
    · simp [hwy]
  rw [s1, s2]

/-- Row sum of the capacity table after a single edge update. -/
lemma rowSum_applyEdge_cap (nodes : List α) (hnd : nodes.Nodup)
    (cap flow : α → α → Int) (b : Int) {x y : α} (hx : x ∈ nodes)
    (hy : y ∈ nodes) (w : α) :
    rowSum nodes (applyEdge (cap, flow) b (x, y)).1 w =
      rowSum nodes cap w - (if w = x then b else 0) +
        (if w = y then b else 0) := by
  unfold rowSum
  have hmap : (nodes.map (fun v => (applyEdge (cap, flow) b (x, y)).1 w v)) =
      nodes.map (fun v => cap w v - (if w = x ∧ v = y then b else 0) +
        (if w = y ∧ v = x then b else 0)) := by
    apply List.map_congr_left
    intro v _
    rw [applyEdge_cap]
  rw [hmap, list_sum_map_add, list_sum_map_sub]
  have s1 : (nodes.map (fun v => if w = x ∧ v = y then b else 0)).sum =
      if w = x then b else 0 := by
    by_cases hwx : w = x
    · simp only [hwx, true_and, if_pos rfl]
      exact list_sum_ite_of_nodup hnd hy b
    · simp [hwx]
  have s2 : (nodes.map (fun v => if w = y ∧ v = x then b else 0)).sum =
      if w = y then b else 0 := by
    by_cases hwy : w = y
    · simp only [hwy, true_and, if_pos rfl]
      exact list_sum_ite_of_nodup hnd hx b
    · simp [hwy]
  rw [s1, s2]

/-- Row sums of the flow table telescope along a chain: only the chain's
endpoints change, by `+b` at the start and `-b` at the end. -/
lemma rowSum_applyAug_flow (nodes : List α) (hnd : nodes.Nodup) (b : Int) :
    ∀ (p : List (α × α)) (a c : α) (cap flow : α → α → Int),
      chainOK a p c → (∀ e ∈ p, e.1 ∈ nodes ∧ e.2 ∈ nodes) → ∀ w,
      rowSum nodes (applyAug cap flow b p).2 w =
        rowSum nodes flow w + (if w = a then b else 0) -
          (if w = c then b else 0) := by
  intro p
  induction p with
  | nil =>
    intro a c cap flow hchain _ w
    have : a = c := hchain
    subst this
    simp [applyAug]
  | cons e rest ih =>
    intro a c cap flow hchain hmem w
    rcases e with ⟨x, y⟩
    obtain ⟨rfl, hrest⟩ := hchain
    rw [applyAug_cons]
    rw [ih y c _ _ hrest (fun e he => hmem e (List.mem_cons_of_mem _ he)) w]
    have hxy := hmem (x, y) (List.mem_cons_self _ _)
    rw [rowSum_applyEdge_flow nodes hnd cap flow b hxy.1 hxy.2 w]
    ring

/-- Row sums of the capacity table telescope along a chain: `-b` at the
start, `+b` at the end. -/
lemma rowSum_applyAug_cap (nodes : List α) (hnd : nodes.Nodup) (b : Int) :
    ∀ (p : List (α × α)) (a c : α) (cap flow : α → α → Int),
      chainOK a p c → (∀ e ∈ p, e.1 ∈ nodes ∧ e.2 ∈ nodes) → ∀ w,
      rowSum nodes (applyAug cap flow b p).1 w =
        rowSum nodes cap w - (if w = a then b else 0) +
          (if w = c then b else 0) := by
  intro p
  induction p with
  | nil =>
    intro a c cap flow hchain _ w
    have : a = c := hchain
    subst this
    simp [applyAug]
  | cons e rest ih =>
    intro a c cap flow hchain hmem w
    rcases e with ⟨x, y⟩
    obtain ⟨rfl, hrest⟩ := hchain
    rw [applyAug_cons]
    rw [ih y c _ _ hrest (fun e he => hmem e (List.mem_cons_of_mem _ he)) w]
    have hxy := hmem (x, y) (List.mem_cons_self _ _)
    rw [rowSum_applyEdge_cap nodes hnd cap flow b hxy.1 hxy.2 w]
    ring

lemma foldl_min_le (l : List Int) : ∀ (a : Int) (x : Int), x ∈ a :: l →
    l.foldl min a ≤ x := by
  induction l with
  | nil =>
    intro a x hx
    rw [List.mem_singleton] at hx
    subst hx
    exact le_refl _
  | cons c cs ih =>
    intro a x hx
    rcases List.mem_cons.mp hx with rfl | hx
    · calc cs.foldl min (min x c) ≤ min x c :=
            ih (min x c) (min x c) (List.mem_cons_self _ _)
        _ ≤ x := min_le_left _ _
    · rcases List.mem_cons.mp hx with rfl | hx
      · calc cs.foldl min (min a x) ≤ min a x :=
              ih (min a x) (min a x) (List.mem_cons_self _ _)
          _ ≤ x := min_le_right _ _
      · exact ih (min a c) x (List.mem_cons_of_mem _ hx)

lemma foldl_min_ge (l : List Int) : ∀ (a m : Int), m ≤ a →
    (∀ x ∈ l, m ≤ x) → m ≤ l.foldl min a := by
  induction l with
  | nil => intro a m ha _; exact ha
  | cons c cs ih =>
    intro a m ha hl
    exact ih (min a c) m (le_min ha (hl c (List.mem_cons_self _ _)))
      (fun x hx => hl x (List.mem_cons_of_mem _ hx))

/-- The bottleneck never exceeds any residual capacity on the path. -/
lemma bottleneckOf_le {cap : α → α → Int} {p : List (α × α)} {e : α × α}
    (he : e ∈ p) : bottleneckOf cap p ≤ cap e.1 e.2 := by
  cases p with
  | nil => exact absurd he (by simp)
  | cons e0 rest =>
    show (rest.map (fun e => cap e.1 e.2)).foldl min (cap e0.1 e0.2) ≤ _
    apply foldl_min_le
    rcases List.mem_cons.mp he with rfl | he
    · exact List.mem_cons_self _ _
    · exact List.mem_cons_of_mem _ (List.mem_map.mpr ⟨e, he, rfl⟩)

/-- With integer capacities, the bottleneck of a nonempty path of strictly
positive residual edges is at least 1. -/
lemma bottleneckOf_ge_one {cap : α → α → Int} {p : List (α × α)}
    (hne : p ≠ []) (hpos : ∀ e ∈ p, 0 < cap e.1 e.2) :
    1 ≤ bottleneckOf cap p := by
  cases p with
  | nil => exact absurd rfl hne
  | cons e0 rest =>
    show 1 ≤ (rest.map (fun e => cap e.1 e.2)).foldl min (cap e0.1 e0.2)
    apply foldl_min_ge
    · exact hpos e0 (List.mem_cons_self _ _)
    · intro x hx
      obtain ⟨e, he, rfl⟩ := List.mem_map.mp hx
      exact hpos e (List.mem_cons_of_mem _ he)

end ApplyLemmas

section BuildLemmas

variable {α : Type} [DecidableEq α]

lemma mem_insertOnce {l : List α} {x a : α} :
    a ∈ insertOnce l x ↔ a ∈ l ∨ a = x := by
  unfold insertOnce
  split_ifs with h
  · constructor
    · exact Or.inl
    · rintro (ha | rfl)
      · exact ha
      · exact h
  · rw [List.mem_append, List.mem_singleton]

/-- Total original capacity of the ordered pair `(u, v)`: the sum of the
capacities of all parallel edges listed for it. -/
def edgeCapSum (edges : List (α × α × Int)) (u v : α) : Int :=
  ((edges.filter (fun e => decide (e.1 = u ∧ e.2.1 = v))).map
    (fun e => e.2.2)).sum

lemma buildAdjCap_cap_go :
    ∀ (edges : List (α × α × Int)) (st : (α → List α) × (α → α → Int))
      (u v : α),
      (edges.foldl buildStep st).2 u v = st.2 u v + edgeCapSum edges u v := by
  intro edges
  induction edges with
  | nil => intro st u v; simp [edgeCapSum]
  | cons e rest ih =>
    intro st u v
    rw [List.foldl_cons, ih]
    have hstep : (buildStep st e).2 u v =
        st.2 u v + (if e.1 = u ∧ e.2.1 = v then e.2.2 else 0) := by
      show fupd2 st.2 e.1 e.2.1 (st.2 e.1 e.2.1 + e.2.2) u v = _
      by_cases h : u = e.1 ∧ v = e.2.1
      · obtain ⟨rfl, rfl⟩ := h
        rw [fupd2_same, if_pos ⟨rfl, rfl⟩]
      · rw [fupd2_other _ _ h, if_neg (fun hh => h ⟨hh.1.symm, hh.2.symm⟩)]
        ring
    have hsum : edgeCapSum (e :: rest) u v =
        (if e.1 = u ∧ e.2.1 = v then e.2.2 else 0) + edgeCapSum rest u v := by
      unfold edgeCapSum
      rw [List.filter_cons]
      by_cases h : e.1 = u ∧ e.2.1 = v
      · rw [if_pos (by simpa using h)]
        simp [h.1, h.2]
      · rw [if_neg (by simpa using h), if_neg h]
        ring_nf
    rw [hstep, hsum]
    ring

/-- The engine's initial capacity table sums parallel edges. -/
lemma capInit_eq_edgeCapSum (edges : List (α × α × Int)) (u v : α) :
    capInit edges u v = edgeCapSum edges u v := by
  have := buildAdjCap_cap_go edges (fun _ => [], fun _ _ => 0) u v
  simpa [capInit, buildAdjCap] using this

lemma capInit_nonneg {nodes : List α} {edges : List (α × α × Int)} {s t : α}
    (hv : Valid nodes edges s t) (u v : α) : 0 ≤ capInit edges u v := by
  rw [capInit_eq_edgeCapSum]
  apply List.sum_nonneg
  intro x hx
  obtain ⟨e, he, rfl⟩ := List.mem_map.mp hx
  exact hv.2.2.2.2.1 e (List.mem_of_mem_filter he)

lemma capInit_eq_zero_of_no_edge {edges : List (α × α × Int)} {u v : α}
    (h : ∀ c, (u, v, c) ∉ edges) : capInit edges u v = 0 := by
  rw [capInit_eq_edgeCapSum]
  have : edges.filter (fun e => decide (e.1 = u ∧ e.2.1 = v)) = [] := by
    rw [List.filter_eq_nil]
    intro e he
    simp only [decide_eq_true_eq]
    rintro ⟨h1, h2⟩
    exact h e.2.2 (by rw [← h1, ← h2]; exact he)
  unfold edgeCapSum
  rw [this]
  simp

lemma capInit_ne_zero_edge {edges : List (α × α × Int)} {u v : α}
    (h : capInit edges u v ≠ 0) : ∃ c, (u, v, c) ∈ edges := by
  by_contra hno
  push_neg at hno
  exact h (capInit_eq_zero_of_no_edge hno)

lemma mem_buildStep_adj {st : (α → List α) × (α → α → Int)}
    {e : α × α × Int} {u v : α} :
    v ∈ (buildStep st e).1 u ↔
      v ∈ st.1 u ∨ (u = e.1 ∧ v = e.2.1) ∨ (u = e.2.1 ∧ v = e.1) := by
  rcases e with ⟨x, y, c⟩
  show v ∈ fupd (fupd st.1 x (insertOnce (st.1 x) y)) y
      (insertOnce ((fupd st.1 x (insertOnce (st.1 x) y)) y) x) u ↔ _
  simp only [fupd, mem_insertOnce]
  by_cases huy : u = y <;> by_cases hux : u = x <;>
    by_cases hyx : x = y <;>
    simp_all [mem_insertOnce] <;> tauto

lemma buildAdjCap_adj_go :
    ∀ (edges : List (α × α × Int)) (st : (α → List α) × (α → α → Int))
      (u v : α),
      v ∈ (edges.foldl buildStep st).1 u ↔
        v ∈ st.1 u ∨ (∃ c, (u, v, c) ∈ edges) ∨ (∃ c, (v, u, c) ∈ edges) := by
  intro edges
  induction edges with
  | nil => intro st u v; simp
  | cons e rest ih =>
    intro st u v
    rw [List.foldl_cons, ih, mem_buildStep_adj]
    constructor
    · rintro ((hst | ⟨rfl, rfl⟩ | ⟨rfl, rfl⟩) | hc | hc)
      · exact Or.inl hst
      · exact Or.inr (Or.inl ⟨e.2.2, by simp⟩)
      · exact Or.inr (Or.inr ⟨e.2.2, by simp⟩)
      · obtain ⟨c, hc⟩ := hc
        exact Or.inr (Or.inl ⟨c, List.mem_cons_of_mem _ hc⟩)
      · obtain ⟨c, hc⟩ := hc
        exact Or.inr (Or.inr ⟨c, List.mem_cons_of_mem _ hc⟩)
    · rintro (hst | ⟨c, hc⟩ | ⟨c, hc⟩)
      · exact Or.inl (Or.inl hst)
      · rcases List.mem_cons.mp hc with hh | hh
        · cases hh
          exact Or.inl (Or.inr (Or.inl ⟨rfl, rfl⟩))
        · exact Or.inr (Or.inl ⟨c, hh⟩)
      · rcases List.mem_cons.mp hc with hh | hh
        · cases hh
          exact Or.inl (Or.inr (Or.inr ⟨rfl, rfl⟩))
        · exact Or.inr (Or.inr ⟨c, hh⟩)

/-- Adjacency membership characterisation: the built adjacency contains
exactly the endpoints of listed edges, in both directions. -/
lemma mem_adjOf {edges : List (α × α × Int)} {u v : α} :
    v ∈ adjOf edges u ↔
      (∃ c, (u, v, c) ∈ edges) ∨ (∃ c, (v, u, c) ∈ edges) := by
  have := buildAdjCap_adj_go edges (fun _ => [], fun _ _ => 0) u v
  simpa [adjOf, buildAdjCap] using this

/-- The adjacency relation is symmetric (both directions are added). -/
lemma adjOf_symm {edges : List (α × α × Int)} {u v : α}
    (h : v ∈ adjOf edges u) : u ∈ adjOf edges v := by
  rw [mem_adjOf] at h ⊢
  tauto

/-- Positive residual capacity in the initial table only between adjacency
neighbours. -/
lemma capInit_pos_mem_adj {edges : List (α × α × Int)} {u v : α}
    (h : capInit edges u v ≠ 0) : v ∈ adjOf edges u := by
  obtain ⟨c, hc⟩ := capInit_ne_zero_edge h
  exact mem_adjOf.mpr (Or.inl ⟨c, hc⟩)

/-- Under structural validity, adjacency targets are nodes. -/
lemma adjOf_mem_nodes {nodes : List α} {edges : List (α × α × Int)} {s : α}
    (hv : ValidW nodes edges s) {u v : α} (h : v ∈ adjOf edges u) :
    v ∈ nodes := by
  rcases mem_adjOf.mp h with ⟨c, hc⟩ | ⟨c, hc⟩
  · exact (hv.2.2 _ hc).2
  · exact (hv.2.2 _ hc).1

end BuildLemmas

section BfsBasicLemmas

variable {α : Type} [DecidableEq α]

/-- A successful parent walk survives setting the parent of a yet-unvisited
node (the walk never passes through an unvisited node). -/
lemma buildPath_update_fresh {par : α → Option α} {s x : α} (u0 : α)
    (hx : par x = none) :
    ∀ (f : Nat) (v : α) (p : List (α × α)), buildPath par s f v = some p →
      buildPath (fupd par x (some u0)) s f v = some p := by
  intro f
  induction f with
  | zero =>
    intro v p h
    rcases Classical.em (v = s) with hv | hv
    · subst hv; rw [buildPath_self] at h ⊢; exact h
    · rw [buildPath_zero_ne hv] at h; exact absurd h (by simp)
  | succ f ih =>
    intro v p h
    rcases Classical.em (v = s) with hv | hv
    · subst hv; rw [buildPath_self] at h ⊢; exact h
    · obtain ⟨u, q, hpar, hq, rfl⟩ := buildPath_succ_elim hv h
      have hvx : v ≠ x := fun hh => by rw [hh, hx] at hpar; exact Option.noConfusion hpar
      rw [buildPath_succ_some hv (by rw [fupd_other _ _ hvx]; exact hpar),
        ih u q hq]
      rfl

/-- A successful walk needs only as much fuel as its length. -/
lemma buildPath_exact {par : α → Option α} {s : α} :
    ∀ (f : Nat) (v : α) (p : List (α × α)), buildPath par s f v = some p →
      buildPath par s p.length v = some p := by
  intro f
  induction f with
  | zero =>
    intro v p h
    rcases Classical.em (v = s) with hv | hv
    · subst hv; rw [buildPath_self] at h; injection h with h; rw [← h]; simp
    · rw [buildPath_zero_ne hv] at h; exact absurd h (by simp)
  | succ f ih =>
    intro v p h
    rcases Classical.em (v = s) with hv | hv
    · subst hv
      rw [buildPath_self] at h
      injection h with h
      rw [← h]
      simp
    · obtain ⟨u, q, hpar, hq, rfl⟩ := buildPath_succ_elim hv h
      have hlen : (q ++ [(u, v)]).length = q.length + 1 := by simp
      rw [hlen, buildPath_succ_some hv hpar, ih u q hq]
      rfl

/-- Basic BFS loop invariant: the source is visited and is its own parent;
queued nodes are visited; every recorded parent edge of a non-source node
has strictly positive residual capacity and lies in the adjacency; every
visited node's parent walk reaches the source. -/
structure BfsBasic (cap : α → α → Int) (adj : α → List α) (s : α)
    (par : α → Option α) (q : List α) : Prop where
  src : par s = some s
  qvis : ∀ v ∈ q, par v ≠ none
  edge : ∀ v u, par v = some u → v = s ∨ (0 < cap u v ∧ v ∈ adj u)
  reach : ∀ v, par v ≠ none → ∃ f p, buildPath par s f v = some p

lemma bfsScan_basic {cap : α → α → Int} {adj : α → List α} {s t u : α} :
    ∀ (vs : List α) (par : α → Option α) (q : List α),
      BfsBasic cap adj s par q → par u ≠ none →
      (∀ v ∈ vs, v ∈ adj u) →
      BfsBasic cap adj s (bfsScan cap t u vs par q).1
          (bfsScan cap t u vs par q).2.1 ∧
        (∀ v y, par v = some y → (bfsScan cap t u vs par q).1 v = some y) ∧
        ((bfsScan cap t u vs par q).2.2 = true →
          (bfsScan cap t u vs par q).1 t ≠ none ∧ t ≠ s) := by
  intro vs
  induction vs with
  | nil =>
    intro par q hbas hu hvs
    exact ⟨hbas, fun v y h => h, fun h => Bool.noConfusion h⟩
  | cons v vs ih =>
    intro par q hbas hu hvs
    simp only [bfsScan]
    by_cases hc : par v = none ∧ 0 < cap u v
    · rw [if_pos hc]
      have hvs1 : v ∈ adj u := hvs v (List.mem_cons_self _ _)
      have hvns : v ≠ s := fun hh => by
        rw [hh, hbas.src] at hc
        exact Option.noConfusion hc.1
      have hnewbas : BfsBasic cap adj s (fupd par v (some u)) (q ++ [v]) := by
        refine ⟨?_, ?_, ?_, ?_⟩
        · rw [fupd_other _ _ (Ne.symm hvns)]; exact hbas.src
        · intro w hw
          rcases List.mem_append.mp hw with hw | hw
          · by_cases hwv : w = v
            · subst hwv; simp [fupd]
            · rw [fupd_other _ _ hwv]; exact hbas.qvis w hw
          · rw [List.mem_singleton] at hw
            subst hw
            simp [fupd]
        · intro w y hw
          by_cases hwv : w = v
          · subst hwv
            rw [fupd_same] at hw
            injection hw with hw
            subst hw
            exact Or.inr ⟨hc.2, hvs1⟩
          · rw [fupd_other _ _ hwv] at hw
            exact hbas.edge w y hw
        · intro w hw
          by_cases hwv : w = v
          · subst hwv
            obtain ⟨f, p, hp⟩ := hbas.reach u hu
            have hparw : fupd par w (some u) w = some u := by simp [fupd]
            refine ⟨f + 1, p ++ [(u, w)], ?_⟩
            rw [buildPath_succ_some hvns hparw,
              buildPath_update_fresh u hc.1 f u p hp]
            rfl
          · rw [fupd_other _ _ hwv] at hw
            obtain ⟨f, p, hp⟩ := hbas.reach w hw
            exact ⟨f, p, buildPath_update_fresh u hc.1 f w p hp⟩
      by_cases hvt : v = t
      · rw [if_pos hvt]
        refine ⟨?_, ?_, ?_⟩
        · exact ⟨hnewbas.src, fun w hw => hnewbas.qvis w (List.mem_append.mpr (Or.inl hw)),
            hnewbas.edge, hnewbas.reach⟩
        · intro w y hw
          show fupd par v (some u) w = some y
          have hwv : w ≠ v := fun hh => by rw [hh, hc.1] at hw; exact Option.noConfusion hw
          rw [fupd_other _ _ hwv]
          exact hw
        · intro _
          refine ⟨?_, hvt ▸ hvns⟩
          show fupd par v (some u) t ≠ none
          have : fupd par v (some u) t = some u := by
            rw [← hvt]
            simp [fupd]
          rw [this]
          simp
      · rw [if_neg hvt]
        have hmono : ∀ w y, par w = some y → fupd par v (some u) w = some y := by
          intro w y hw
          have hwv : w ≠ v := fun hh => by rw [hh, hc.1] at hw; exact Option.noConfusion hw
          rw [fupd_other _ _ hwv]
          exact hw
        have hu' : fupd par v (some u) u ≠ none := by
          intro hcon
          obtain ⟨y, hy⟩ := Option.ne_none_iff_exists'.mp hu
          rw [hmono u y hy] at hcon
          exact Option.noConfusion hcon
        obtain ⟨h1, h2, h3⟩ := ih (fupd par v (some u)) (q ++ [v]) hnewbas hu'
          (fun w hw => hvs w (List.mem_cons_of_mem _ hw))
        exact ⟨h1, fun w y hw => h2 w y (hmono w y hw), h3⟩
    · rw [if_neg hc]
      exact ih par q hbas hu (fun w hw => hvs w (List.mem_cons_of_mem _ hw))

lemma bfsLoop_basic {cap : α → α → Int} {adj : α → List α} {s t : α} :
    ∀ (f : Nat) (q : List α) (par : α → Option α),
      BfsBasic cap adj s par q →
      BfsBasic cap adj s (bfsLoop cap adj t f q par).2 [] ∧
        (∀ v y, par v = some y → (bfsLoop cap adj t f q par).2 v = some y) ∧
        ((bfsLoop cap adj t f q par).1 = true →
          (bfsLoop cap adj t f q par).2 t ≠ none ∧ t ≠ s) := by
  intro f
  induction f with
  | zero =>
    intro q par hbas
    exact ⟨⟨hbas.src, by simp, hbas.edge, hbas.reach⟩, fun v y h => h,
      fun h => Bool.noConfusion h⟩
  | succ f ih =>
    intro q par hbas
    cases q with
    | nil =>
      exact ⟨⟨hbas.src, by simp, hbas.edge, hbas.reach⟩, fun v y h => h,
        fun h => Bool.noConfusion h⟩
    | cons u q =>
      simp only [bfsLoop]
      have hu : par u ≠ none := hbas.qvis u (List.mem_cons_self _ _)
      have hbas' : BfsBasic cap adj s par q :=
        ⟨hbas.src, fun v hv => hbas.qvis v (List.mem_cons_of_mem _ hv),
          hbas.edge, hbas.reach⟩
      obtain ⟨h1, h2, h3⟩ := bfsScan_basic (adj u) par q hbas' hu (fun v hv => hv)
      by_cases hfound : (bfsScan cap t u (adj u) par q).2.2 = true
      · rw [if_pos hfound]
        exact ⟨⟨h1.src, by simp, h1.edge, h1.reach⟩, h2, fun _ => h3 hfound⟩
      · rw [if_neg hfound]
        obtain ⟨g1, g2, g3⟩ := ih _ _ h1
        exact ⟨g1, fun v y hv => g2 v y (h2 v y hv), g3⟩

/-- Facts about `_bfs_capacity`'s result needed by the engine: the source
is its own parent, every other recorded parent is a positive-capacity
adjacency edge, every visited node's parent chain walks back to the source,
and a `True` result means the sink was visited and differs from the
source. -/
lemma bfsCapacity_basic (nodes : List α) (cap : α → α → Int)
    (adj : α → List α) (s t : α) :
    (bfsCapacity nodes cap adj s t).2 s = some s ∧
      (∀ v u, (bfsCapacity nodes cap adj s t).2 v = some u →
        v = s ∨ (0 < cap u v ∧ v ∈ adj u)) ∧
      (∀ v, (bfsCapacity nodes cap adj s t).2 v ≠ none →
        ∃ f p, buildPath (bfsCapacity nodes cap adj s t).2 s f v = some p) ∧
      ((bfsCapacity nodes cap adj s t).1 = true →
        (bfsCapacity nodes cap adj s t).2 t ≠ none ∧ t ≠ s) := by
  have hinit : BfsBasic cap adj s (fupd (fun _ => none) s (some s)) [s] := by
    refine ⟨by simp, ?_, ?_, ?_⟩
    · intro v hv
      rw [List.mem_singleton] at hv
      subst hv
      simp
    · intro v u hv
      by_cases hvs : v = s
      · exact Or.inl hvs
      · rw [fupd_other _ _ hvs] at hv
        exact absurd hv (by simp)
    · intro v hv
      by_cases hvs : v = s
      · subst hvs
        exact ⟨0, [], by simp⟩
      · rw [fupd_other _ _ hvs] at hv
        exact absurd rfl hv
  obtain ⟨h1, _, h3⟩ := bfsLoop_basic (nodes.length + 1) [s]
    (fupd (fun _ => none) s (some s)) hinit
  exact ⟨h1.src, h1.edge, h1.reach, h3⟩

end BfsBasicLemmas

section EngineLemmas

variable {α : Type} [DecidableEq α]

lemma nodup_length_le {l₁ l₂ : List α} (hnd : l₁.Nodup)
    (hsub : ∀ x ∈ l₁, x ∈ l₂) : l₁.length ≤ l₂.length := by
  calc l₁.length = l₁.toFinset.card := (List.toFinset_card_of_nodup hnd).symm
    _ ≤ l₂.toFinset.card := Finset.card_le_card (by
        intro x hx
        rw [List.mem_toFinset] at hx ⊢
        exact hsub x hx)
    _ ≤ l₂.length := l₂.toFinset_card_le

lemma chain_srcs : ∀ (p : List (α × α)) (a c : α), chainOK a p c →
    ∀ e ∈ p, e.1 = a ∨ e.1 ∈ p.map Prod.snd := by
  intro p
  induction p with
  | nil => intro a c _ e he; exact absurd he (by simp)
  | cons e0 rest ih =>
    intro a c hchain e he
    obtain ⟨h0, hrest⟩ := hchain
    rcases List.mem_cons.mp he with rfl | he'
    · exact Or.inl h0
    · rcases ih e0.2 c hrest e he' with h | h
      · exact Or.inr (by simp [h])
      · exact Or.inr (by simp; right; simpa using h)

lemma buildPath_ne_nil {par : α → Option α} {s v : α} {f : Nat}
    {p : List (α × α)} (hv : v ≠ s) (h : buildPath par s f v = some p) :
    p ≠ [] := by
  intro hnil
  subst hnil
  have := (buildPath_chain par s f v [] h).1
  exact hv (this : s = v).symm

/-- On a `True` BFS result over the engine's adjacency, the Python path
reconstruction succeeds within `nodes.length` steps (stuck-freedom). -/
lemma bfs_reconstruction_ok {nodes : List α} {edges : List (α × α × Int)}
    {s t : α} (hv : ValidW nodes edges s) (cap : α → α → Int)
    (hfound : (bfsCapacity nodes cap (adjOf edges) s t).1 = true) :
    ∃ p, buildPath (bfsCapacity nodes cap (adjOf edges) s t).2 s
      nodes.length t = some p := by
  obtain ⟨hsrc, hedge, hreach, hf⟩ := bfsCapacity_basic nodes cap (adjOf edges) s t
  obtain ⟨ht, hts⟩ := hf hfound
  obtain ⟨f, p, hp⟩ := hreach t ht
  set par := (bfsCapacity nodes cap (adjOf edges) s t).2
  have hex := buildPath_exact f t p hp
  have htg : ∀ x ∈ p.map Prod.snd, x ∈ nodes := by
    intro x hx
    obtain ⟨e, he, rfl⟩ := List.mem_map.mp hx
    obtain ⟨hpe, hne⟩ := (buildPath_chain par s f t p hp).2 e he
    rcases hedge e.2 e.1 hpe with hh | hh
    · exact absurd hh hne
    · exact adjOf_mem_nodes hv hh.2
  have hnd := (buildPath_nodup par s f t p hp).1
  have hlen : p.length ≤ nodes.length := by
    have : (p.map Prod.snd).length ≤ nodes.length := nodup_length_le hnd htg
    simpa using this
  exact ⟨p, buildPath_mono_le par s hlen hex⟩

/-- Destructor for a `.next` engine step: it comes from a `True` BFS and a
successful reconstruction. -/
lemma ekStep_next_elim {nodes : List α} {adj : α → List α} {s t : α}
    {st st' : EKState α} (h : ekStep nodes adj s t st = .next st') :
    ∃ p, (bfsCapacity nodes st.cap adj s t).1 = true ∧
      buildPath (bfsCapacity nodes st.cap adj s t).2 s nodes.length t = some p ∧
      st' = applyState st t p := by
  unfold ekStep at h
  by_cases hb : (bfsCapacity nodes st.cap adj s t).1 = true
  · rw [if_pos hb] at h
    cases hp : buildPath (bfsCapacity nodes st.cap adj s t).2 s nodes.length t with
    | none => rw [hp] at h; exact absurd h (by simp)
    | some p =>
      rw [hp] at h
      simp only [StepRes.next.injEq] at h
      exact ⟨p, hb, rfl, h.symm⟩
  · rw [if_neg hb] at h
    exact absurd h (by simp)

/-- Under structural validity the engine step never gets stuck. -/
lemma ekStep_not_stuck {nodes : List α} {edges : List (α × α × Int)}
    {s t : α} (hv : ValidW nodes edges s) (st : EKState α) :
    ekStep nodes (adjOf edges) s t st ≠ .stuck := by
  intro h
  unfold ekStep at h
  by_cases hb : (bfsCapacity nodes st.cap (adjOf edges) s t).1 = true
  · rw [if_pos hb] at h
    obtain ⟨p, hp⟩ := bfs_reconstruction_ok hv st.cap hb
    rw [hp] at h
    exact StepRes.noConfusion h
  · rw [if_neg hb] at h
    exact StepRes.noConfusion h

/-- Destructor for a `.done` engine step: the BFS failed and the state is
returned unchanged. -/
lemma ekStep_done_elim {nodes : List α} {adj : α → List α} {s t : α}
    {st st' : EKState α} (h : ekStep nodes adj s t st = .done st') :
    st' = st ∧ (bfsCapacity nodes st.cap adj s t).1 = false := by
  unfold ekStep at h
  by_cases hb : (bfsCapacity nodes st.cap adj s t).1 = true
  · rw [if_pos hb] at h
    cases hp : buildPath (bfsCapacity nodes st.cap adj s t).2 s nodes.length t with
    | none => rw [hp] at h; exact StepRes.noConfusion h
    | some p => rw [hp] at h; exact StepRes.noConfusion h
  · rw [if_neg hb] at h
    refine ⟨?_, by revert hb; cases (bfsCapacity nodes st.cap adj s t).1 <;> simp⟩
    injection h with h
    exact h.symm

/-- Everything the invariant-preservation arguments need about the path an
engine step augments along. -/
structure StepPath (nodes : List α) (edges : List (α × α × Int)) (s t : α)
    (st : EKState α) (p : List (α × α)) : Prop where
  chain : chainOK s p t
  nodupT : (p.map Prod.snd).Nodup
  srcNot : s ∉ p.map Prod.snd
  capPos : ∀ e ∈ p, 0 < st.cap e.1 e.2
  adjFwd : ∀ e ∈ p, e.2 ∈ adjOf edges e.1
  inNodes : ∀ e ∈ p, e.1 ∈ nodes ∧ e.2 ∈ nodes
  nonNil : p ≠ []
  tns : t ≠ s

/-- A `.next` step under structural validity augments along a path with
all the structural properties above. -/
lemma ekStep_next_path {nodes : List α} {edges : List (α × α × Int)}
    {s t : α} {st st' : EKState α} (hv : ValidW nodes edges s)
    (h : ekStep nodes (adjOf edges) s t st = .next st') :
    ∃ p, st' = applyState st t p ∧ StepPath nodes edges s t st p := by
  obtain ⟨p, hfound, hp, hst'⟩ := ekStep_next_elim h
  obtain ⟨hsrc, hedge, hreach, hf⟩ :=
    bfsCapacity_basic nodes st.cap (adjOf edges) s t
  obtain ⟨ht, hts⟩ := hf hfound
  set par := (bfsCapacity nodes st.cap (adjOf edges) s t).2
  obtain ⟨hchain, hpedges⟩ := buildPath_chain par s nodes.length t p hp
  obtain ⟨hnd, hsnot⟩ := buildPath_nodup par s nodes.length t p hp
  have hcapadj : ∀ e ∈ p, 0 < st.cap e.1 e.2 ∧ e.2 ∈ adjOf edges e.1 := by
    intro e he
    obtain ⟨hpe, hne⟩ := hpedges e he
    rcases hedge e.2 e.1 hpe with hh | hh
    · exact absurd hh hne
    · exact hh
  have hinn : ∀ e ∈ p, e.1 ∈ nodes ∧ e.2 ∈ nodes := by
    intro e he
    have h2 : e.2 ∈ nodes := adjOf_mem_nodes hv (hcapadj e he).2
    rcases chain_srcs p s t hchain e he with h1 | h1
    · exact ⟨h1 ▸ hv.2.1, h2⟩
    · obtain ⟨e', he', he2⟩ := List.mem_map.mp h1
      exact ⟨he2 ▸ adjOf_mem_nodes hv (hcapadj e' he').2, h2⟩
  exact ⟨p, hst', ⟨hchain, hnd, hsnot, fun e he => (hcapadj e he).1,
    fun e he => (hcapadj e he).2, hinn, buildPath_ne_nil hts hp, hts⟩⟩

end EngineLemmas

section Invariant

variable {α : Type} [DecidableEq α]

/-- The engine loop invariant: skew symmetry, capacity/flow bookkeeping
(`cap + flow` recovers the summed original capacity), a lower bound on
residual capacities (nonnegativity on valid input), flow conservation at
internal nodes, positive residual capacity only along adjacency edges,
all recorded bottlenecks at least 1, and the last history snapshot equal
to the live residual table. -/
structure EngInv (nodes : List α) (edges : List (α × α × Int)) (s t : α)
    (st : EKState α) : Prop where
  skew : ∀ u v, st.flow u v = -(st.flow v u)
  capflow : ∀ u v, st.cap u v + st.flow u v = capInit edges u v
  caplow : ∀ u v, min (capInit edges u v) 0 ≤ st.cap u v
  consv : ∀ w ∈ nodes, w ≠ s → w ≠ t → rowSum nodes st.flow w = 0
  covering : ∀ u v, 0 < st.cap u v → v ∈ adjOf edges u
  histpos : ∀ h ∈ st.history, 1 ≤ h.bottleneck
  lastsnap : ∀ h, st.history.getLast? = some h → h.residual_snapshot = st.cap

lemma rowSum_zero (nodes : List α) (w : α) :
    rowSum nodes (fun _ _ => (0 : Int)) w = 0 := by
  unfold rowSum
  induction nodes with
  | nil => rfl
  | cons n ns ih => simpa using ih

lemma EngInv_init (nodes : List α) (edges : List (α × α × Int)) (s t : α) :
    EngInv nodes edges s t (ekInit edges) := by
  refine ⟨?_, ?_, ?_, ?_, ?_, ?_, ?_⟩
  · intro u v; simp [ekInit]
  · intro u v; simp [ekInit]
  · intro u v
    show min (capInit edges u v) 0 ≤ capInit edges u v
    exact min_le_left _ _
  · intro w _ _ _
    exact rowSum_zero nodes w
  · intro u v h
    have h' : 0 < capInit edges u v := h
    exact capInit_pos_mem_adj (ne_of_gt h')
  · intro h hmem; exact absurd hmem (by simp [ekInit])
  · intro h hh; exact absurd hh (by simp [ekInit])

/-- Invariant preservation together with the quantitative facts the
termination and progress claims need. -/
lemma EngInv_step {nodes : List α} {edges : List (α × α × Int)} {s t : α}
    {st st' : EKState α} (hv : ValidW nodes edges s)
    (hinv : EngInv nodes edges s t st)
    (h : ekStep nodes (adjOf edges) s t st = .next st') :
    EngInv nodes edges s t st' ∧
      (∃ b, 1 ≤ b ∧ st'.maxFlow = st.maxFlow + b ∧
        rowSum nodes st'.cap s = rowSum nodes st.cap s - b) ∧
      st.history.length + 1 = st'.history.length := by
  obtain ⟨p, rfl, hp⟩ := ekStep_next_path hv h
  set b := bottleneckOf st.cap p with hbdef
  have hb1 : 1 ≤ b := bottleneckOf_ge_one hp.nonNil hp.capPos
  have hble : ∀ e ∈ p, b ≤ st.cap e.1 e.2 := fun e he => bottleneckOf_le he
  have hcap' : (applyState st t p).cap = (applyAug st.cap st.flow b p).1 := rfl
  have hflow' : (applyState st t p).flow = (applyAug st.cap st.flow b p).2 := rfl
  have hmax' : (applyState st t p).maxFlow = st.maxFlow + b := rfl
  -- three-way case split helper at a pair
  have hcases : ∀ u v : α, (u, v) ∈ p ∨ (v, u) ∈ p ∨ ((u, v) ∉ p ∧ (v, u) ∉ p) := by
    intro u v
    by_cases h1 : (u, v) ∈ p
    · exact Or.inl h1
    · by_cases h2 : (v, u) ∈ p
      · exact Or.inr (Or.inl h2)
      · exact Or.inr (Or.inr ⟨h1, h2⟩)
  refine ⟨⟨?_, ?_, ?_, ?_, ?_, ?_, ?_⟩, ⟨b, hb1, hmax', ?_⟩, ?_⟩
  · -- skew
    rw [hflow']
    exact skew_applyAug b p st.cap st.flow hinv.skew
  · -- capflow
    intro u v
    rw [hcap', hflow']
    rcases hcases u v with hm | hm | ⟨hm1, hm2⟩
    · obtain ⟨hf1, _, hc1, _⟩ :=
        applyAug_flow_mem b st.cap st.flow hp.chain hp.nodupT hp.srcNot hm
      rw [hf1, hc1]
      have := hinv.capflow u v
      ring_nf
      ring_nf at this
      linarith
    · obtain ⟨_, hf2, _, hc2⟩ :=
        applyAug_flow_mem b st.cap st.flow hp.chain hp.nodupT hp.srcNot hm
      rw [hf2, hc2]
      have := hinv.capflow u v
      linarith
    · obtain ⟨hf, hc⟩ := applyAug_not_mem b st.cap st.flow hm1 hm2
      rw [hf, hc]
      exact hinv.capflow u v
  · -- caplow
    intro u v
    rw [hcap']
    rcases hcases u v with hm | hm | ⟨hm1, hm2⟩
    · obtain ⟨_, _, hc1, _⟩ :=
        applyAug_flow_mem b st.cap st.flow hp.chain hp.nodupT hp.srcNot hm
      rw [hc1]
      have := hble (u, v) hm
      have hmin : min (capInit edges u v) 0 ≤ 0 := min_le_right _ _
      linarith
    · obtain ⟨_, _, _, hc2⟩ :=
        applyAug_flow_mem b st.cap st.flow hp.chain hp.nodupT hp.srcNot hm
      rw [hc2]
      have := hinv.caplow u v
      linarith
    · obtain ⟨_, hc⟩ := applyAug_not_mem b st.cap st.flow hm1 hm2
      rw [hc]
      exact hinv.caplow u v
  · -- conservation
    intro w hw hws hwt
    rw [hflow', rowSum_applyAug_flow nodes hv.1 b p s t st.cap st.flow
      hp.chain hp.inNodes w, if_neg hws, if_neg hwt, hinv.consv w hw hws hwt]
    ring
  · -- covering
    intro u v hpos
    rw [hcap'] at hpos
    rcases hcases u v with hm | hm | ⟨hm1, hm2⟩
    · exact hp.adjFwd (u, v) hm
    · exact adjOf_symm (hp.adjFwd (v, u) hm)
    · obtain ⟨_, hc⟩ := applyAug_not_mem b st.cap st.flow hm1 hm2
      rw [hc] at hpos
      exact hinv.covering u v hpos
  · -- histpos
    intro hstep hmem
    have hh : (applyState st t p).history = st.history ++
        [⟨st.stepNo + 1, p.map Prod.fst ++ [t], p, b, st.maxFlow + b,
          (applyAug st.cap st.flow b p).1⟩] := rfl
    rw [hh] at hmem
    rcases List.mem_append.mp hmem with hmem | hmem
    · exact hinv.histpos hstep hmem
    · rw [List.mem_singleton] at hmem
      subst hmem
      exact hb1
  · -- lastsnap
    intro hstep hh
    show hstep.residual_snapshot = (applyState st t p).cap
    have heq : (applyState st t p).history = st.history ++
        [⟨st.stepNo + 1, p.map Prod.fst ++ [t], p, b, st.maxFlow + b,
          (applyAug st.cap st.flow b p).1⟩] := rfl
    rw [heq, List.getLast?_append_cons, List.getLast?_singleton] at hh
    injection hh with hh
    rw [← hh]
    rfl
  · -- source row drain
    rw [hcap', rowSum_applyAug_cap nodes hv.1 b p s t st.cap st.flow
      hp.chain hp.inNodes s, if_pos rfl, if_neg (Ne.symm hp.tns)]
    ring
  · -- history length
    show st.history.length + 1 = (st.history ++ [_]).length
    simp

end Invariant

section Termination

variable {α : Type} [DecidableEq α]

/-- Lower bound on the source's residual out-row (0 on valid input; the
sum of the negative initial capacities in general). -/
def phiLow (nodes : List α) (edges : List (α × α × Int)) (s : α) : Int :=
  (nodes.map (fun v => min (capInit edges s v) 0)).sum

lemma phi_ge_phiLow {nodes : List α} {edges : List (α × α × Int)} {s t : α}
    {st : EKState α} (hinv : EngInv nodes edges s t st) :
    phiLow nodes edges s ≤ rowSum nodes st.cap s := by
  unfold phiLow rowSum
  exact List.sum_le_sum (fun v _ => hinv.caplow s v)

lemma list_sum_toNat_cast (l : List α) (f : α → Nat) :
    ((l.map (fun x => ((f x : Int)))).sum) = (((l.map f).sum : Int)) := by
  induction l with
  | nil => simp
  | cons x l ih => simp [ih]

/-- The main loop returns within the chosen fuel, preserving the
invariant: each iteration drains at least 1 from the source's residual
out-row, which is bounded below. -/
lemma ekRun_total {nodes : List α} {edges : List (α × α × Int)} {s t : α}
    (hv : ValidW nodes edges s) :
    ∀ (F : Nat) (st : EKState α), EngInv nodes edges s t st →
      (rowSum nodes st.cap s - phiLow nodes edges s).toNat < F →
      ∃ stf, ekRun nodes (adjOf edges) s t F st = some stf ∧
        EngInv nodes edges s t stf := by
  intro F
  induction F with
  | zero => intro st _ hm; omega
  | succ F ih =>
    intro st hinv hm
    cases hs : ekStep nodes (adjOf edges) s t st with
    | done st' =>
      obtain ⟨rfl, _⟩ := ekStep_done_elim hs
      exact ⟨st', by simp [ekRun, hs], hinv⟩
    | next st' =>
      obtain ⟨hinv', ⟨b, hb1, _, hphi⟩, _⟩ := EngInv_step hv hinv hs
      have hlow' : phiLow nodes edges s ≤ rowSum nodes st'.cap s :=
        phi_ge_phiLow hinv'
      have hm' : (rowSum nodes st'.cap s - phiLow nodes edges s).toNat < F := by
        omega
      obtain ⟨stf, hrun, hstf⟩ := ih st' hinv' hm'
      exact ⟨stf, by simp [ekRun, hs, hrun], hstf⟩
    | stuck => exact absurd hs (ekStep_not_stuck hv st)

/-- Under structural validity the engine returns and the terminal state
satisfies the invariant. -/
lemma edmondsKarpFull_total {nodes : List α} {edges : List (α × α × Int)}
    {s t : α} (hv : ValidW nodes edges s) :
    ∃ stf, edmondsKarpFull nodes edges s t = some stf ∧
      EngInv nodes edges s t stf := by
  have hdiff : rowSum nodes (ekInit (α := α) edges).cap s -
      phiLow nodes edges s =
      ((nodes.map (fun v => (capInit edges s v).toNat)).sum : Int) := by
    show rowSum nodes (capInit edges) s - phiLow nodes edges s = _
    unfold rowSum phiLow
    rw [← list_sum_map_sub, ← list_sum_toNat_cast]
    apply congrArg List.sum
    apply List.map_congr_left
    intro v _
    omega
  apply ekRun_total hv (ekFuel nodes edges s) (ekInit edges)
    (EngInv_init nodes edges s t)
  rw [hdiff]
  unfold ekFuel
  omega

/-- Reachable iteration states satisfy the invariant. -/
lemma EngInv_iter {nodes : List α} {edges : List (α × α × Int)} {s t : α}
    (hv : ValidW nodes edges s) :
    ∀ (k : Nat) (st : EKState α),
      ekIterState nodes edges s t k = some st → EngInv nodes edges s t st := by
  intro k
  induction k with
  | zero =>
    intro st h
    simp only [ekIterState, ekIter] at h
    injection h with h
    rw [← h]
    exact EngInv_init nodes edges s t
  | succ k ih =>
    intro st h
    simp only [ekIterState, ekIter] at h
    obtain ⟨stk, hk, h2⟩ := Option.bind_eq_some.mp h
    cases hs : ekStep nodes (adjOf edges) s t stk with
    | next st1 =>
      rw [hs] at h2
      injection h2 with h2
      rw [← h2]
      exact (EngInv_step hv (ih stk hk) hs).1
    | done st1 => rw [hs] at h2; exact absurd h2 (by simp)
    | stuck => rw [hs] at h2; exact absurd h2 (by simp)

end Termination

section ProgressClaims

variable {α : Type} [DecidableEq α]

lemma Valid.toW {nodes : List α} {edges : List (α × α × Int)} {s t : α}
    (hv : Valid nodes edges s t) : ValidW nodes edges s :=
  ⟨hv.1, hv.2.1, hv.2.2.2.1⟩

/-- Claim C7: on valid input every iteration of the augmentation loop
increases the total flow by at least 1 (integer bottlenecks of strictly
positive residual paths are at least 1), and the engine terminates with a
result. -/
theorem c7_progress_termination (nodes : List α)
    (edges : List (α × α × Int)) (s t : α) (hv : Valid nodes edges s t) :
    (∀ (k : Nat) (st st' : EKState α),
      ekIterState nodes edges s t k = some st →
      ekStep nodes (adjOf edges) s t st = .next st' →
      st.maxFlow + 1 ≤ st'.maxFlow) ∧
    (edmondsKarp nodes edges s t).isSome = true := by
  constructor
  · intro k st st' _ hs
    obtain ⟨p, rfl, hp⟩ := ekStep_next_path hv.toW hs
    have hb1 : 1 ≤ bottleneckOf st.cap p :=
      bottleneckOf_ge_one hp.nonNil hp.capPos
    show st.maxFlow + 1 ≤ st.maxFlow + bottleneckOf st.cap p
    omega
  · obtain ⟨stf, hrun, _⟩ := edmondsKarpFull_total (t := t) hv.toW
    simp [edmondsKarp, hrun]

/-- Witness for C7 on a concrete valid input. -/
theorem c7_progress_termination_witness :
    Valid [0, 1] [(0, 1, 5)] 0 1 ∧
      (edmondsKarp [0, 1] [(0, 1, 5)] 0 1).isSome = true := by
  refine ⟨by unfold Valid; decide, ?_⟩
  exact (c7_progress_termination [0, 1] [(0, 1, 5)] 0 1
    (by unfold Valid; decide)).2

/-- Amended claim C2: `edmonds_karp` performs no input validation at all —
whenever the node list is duplicate-free, the source is a node and every
edge endpoint is a node, the run completes normally and returns a result,
regardless of negative capacities or self-loops.  (The refuting
counterexample `c2_counterexample_no_validation` shows flow and history
are produced on such input.) -/
theorem c2_no_validation_runs_to_completion (nodes : List α)
    (edges : List (α × α × Int)) (s t : α) (hv : ValidW nodes edges s) :
    (edmondsKarp nodes edges s t).isSome = true := by
  obtain ⟨stf, hrun, _⟩ := edmondsKarpFull_total (t := t) hv
  simp [edmondsKarp, hrun]

/-- Witness for the amended C2 on an input with a negative capacity and a
self-loop. -/
theorem c2_no_validation_witness :
    ValidW [0, 1, 2] [(0, 1, 5), (0, 2, -1), (2, 2, 7)] 0 ∧
      (edmondsKarp [0, 1, 2] [(0, 1, 5), (0, 2, -1), (2, 2, 7)] 0 1).isSome
        = true := by
  refine ⟨by unfold ValidW; decide, ?_⟩
  exact c2_no_validation_runs_to_completion [0, 1, 2]
    [(0, 1, 5), (0, 2, -1), (2, 2, 7)] 0 1 (by unfold ValidW; decide)

end ProgressClaims

section FlowBoundClaims

variable {α : Type} [DecidableEq α]

/-- Extract the terminal state and its invariant from a returned result. -/
lemma edmondsKarp_elim {nodes : List α} {edges : List (α × α × Int)}
    {s t : α} {r : Int × (α → α → Int) × List (HistoryStep α)}
    (hv : ValidW nodes edges s)
    (hrun : edmondsKarp nodes edges s t = some r) :
    ∃ stf, edmondsKarpFull nodes edges s t = some stf ∧
      EngInv nodes edges s t stf ∧
      r = (stf.maxFlow, stf.flow, stf.history) := by
  obtain ⟨stf, hfull, hr⟩ := Option.map_eq_some'.mp hrun
  obtain ⟨stf', hfull', hinv'⟩ := edmondsKarpFull_total (t := t) hv
  rw [hfull] at hfull'
  injection hfull' with hfull'
  exact ⟨stf, hfull, hfull' ▸ hinv', hr.symm⟩

/-- Amended claim C3: for every valid run and original edge `(u, v, c)`,
the returned flow satisfies `flow(u,v) ≤ c` (with `c` the summed original
capacity of the ordered pair), and `0 ≤ flow(u,v)` whenever the input
contains no opposite-direction edge `(v, u)`.  (The refuting
counterexample `c3_counterexample_reverse_edge` shows the lower bound
fails when an opposite edge exists: the table stores net flow.) -/
theorem c3_capacity_respect (nodes : List α) (edges : List (α × α × Int))
    (s t : α) (r : Int × (α → α → Int) × List (HistoryStep α))
    (hv : Valid nodes edges s t)
    (hrun : edmondsKarp nodes edges s t = some r) :
    ∀ e ∈ edges, r.2.1 e.1 e.2.1 ≤ edgeCapSum edges e.1 e.2.1 ∧
      ((∀ c, (e.2.1, e.1, c) ∉ edges) → 0 ≤ r.2.1 e.1 e.2.1) := by
  obtain ⟨stf, _, hinv, rfl⟩ := edmondsKarp_elim hv.toW hrun
  intro e _
  have hcf := hinv.capflow e.1 e.2.1
  have hlow := hinv.caplow e.1 e.2.1
  have hnn : 0 ≤ capInit edges e.1 e.2.1 := capInit_nonneg hv e.1 e.2.1
  constructor
  · show stf.flow e.1 e.2.1 ≤ edgeCapSum edges e.1 e.2.1
    rw [← capInit_eq_edgeCapSum]
    have hmin : min (capInit edges e.1 e.2.1) 0 = 0 := min_eq_right hnn
    rw [hmin] at hlow
    linarith
  · intro hno
    show 0 ≤ stf.flow e.1 e.2.1
    have hzero : capInit edges e.2.1 e.1 = 0 := capInit_eq_zero_of_no_edge hno
    have hcf' := hinv.capflow e.2.1 e.1
    have hlow' := hinv.caplow e.2.1 e.1
    rw [hzero] at hcf' hlow'
    simp only [min_self] at hlow'
    have hskew := hinv.skew e.1 e.2.1
    linarith

/-- Witness for the amended C3 on a single-edge valid input. -/
theorem c3_capacity_respect_witness :
    Valid [0, 1] [(0, 1, 5)] 0 1 ∧
      (edmondsKarp [0, 1] [(0, 1, 5)] 0 1).map
        (fun r => decide (0 ≤ r.2.1 0 1 ∧
          r.2.1 0 1 ≤ edgeCapSum [(0, 1, 5)] 0 1)) = some true := by
  refine ⟨by unfold Valid; decide, ?_⟩
  have hsome : (edmondsKarp [0, 1] [(0, 1, 5)] 0 1).isSome = true := by decide
  cases hrun : edmondsKarp [0, 1] [(0, 1, 5)] 0 1 with
  | none => rw [hrun] at hsome; exact Bool.noConfusion hsome
  | some r =>
    have hc := c3_capacity_respect [0, 1] [(0, 1, 5)] 0 1 r
      (by unfold Valid; decide) hrun (0, 1, 5) (List.mem_singleton.mpr rfl)
    have hno : ∀ c : Int, (((0 : Nat), (1 : Nat), (5 : Int)).2.1,
        ((0 : Nat), (1 : Nat), (5 : Int)).1, c) ∉
        [((0 : Nat), (1 : Nat), (5 : Int))] := by
      intro c hmem
      rw [List.mem_singleton] at hmem
      exact absurd ((Prod.mk.injEq _ _ _ _).mp hmem).1 (by decide)
    simp only [Option.map_some', Option.some.injEq, decide_eq_true_eq]
    exact ⟨hc.2 hno, hc.1⟩

lemma list_sum_map_neg (l : List α) (f : α → Int) :
    (l.map (fun x => -(f x))).sum = -((l.map f).sum) := by
  induction l with
  | nil => simp
  | cons x l ih =>
    simp only [List.map_cons, List.sum_cons, ih]
    ring

/-- Claim C5: on every valid run, the returned flow mapping conserves flow
at every node other than the source and the sink — the (signed) sum of
flow out of `w` equals the (signed) sum of flow into `w` over the node
collection. -/
theorem c5_flow_conservation (nodes : List α) (edges : List (α × α × Int))
    (s t : α) (r : Int × (α → α → Int) × List (HistoryStep α))
    (hv : Valid nodes edges s t)
    (hrun : edmondsKarp nodes edges s t = some r) :
    ∀ w ∈ nodes, w ≠ s → w ≠ t →
      (nodes.map (fun v => r.2.1 w v)).sum =
        (nodes.map (fun v => r.2.1 v w)).sum := by
  obtain ⟨stf, _, hinv, rfl⟩ := edmondsKarp_elim hv.toW hrun
  intro w hw hws hwt
  show (nodes.map (fun v => stf.flow w v)).sum =
    (nodes.map (fun v => stf.flow v w)).sum
  have hout : (nodes.map (fun v => stf.flow w v)).sum = 0 :=
    hinv.consv w hw hws hwt
  have hmap : nodes.map (fun v => stf.flow v w) =
      nodes.map (fun v => -(stf.flow w v)) := by
    apply List.map_congr_left
    intro v _
    rw [hinv.skew v w]
  rw [hmap, list_sum_map_neg, hout]
  ring

/-- Witness for C5: conservation at the middle node of a two-edge chain. -/
theorem c5_flow_conservation_witness :
    Valid [0, 1, 2] [(0, 1, 2), (1, 2, 2)] 0 2 ∧
      (edmondsKarp [0, 1, 2] [(0, 1, 2), (1, 2, 2)] 0 2).map
        (fun r => decide (([0, 1, 2].map (fun v => r.2.1 1 v)).sum =
          ([0, 1, 2].map (fun v => r.2.1 v 1)).sum)) = some true := by
  refine ⟨by unfold Valid; decide, ?_⟩
  have hsome : (edmondsKarp [0, 1, 2] [(0, 1, 2), (1, 2, 2)] 0 2).isSome
      = true := by decide
  cases hrun : edmondsKarp [0, 1, 2] [(0, 1, 2), (1, 2, 2)] 0 2 with
  | none => rw [hrun] at hsome; exact Bool.noConfusion hsome
  | some r =>
    have hc := c5_flow_conservation [0, 1, 2] [(0, 1, 2), (1, 2, 2)] 0 2 r
      (by unfold Valid; decide) hrun 1 (by decide) (by decide) (by decide)
    simp only [Option.map_some', Option.some.injEq, decide_eq_true_eq]
    exact hc

end FlowBoundClaims

section SnapshotClaims

variable {α : Type} [DecidableEq α]

lemma ekIterState_succ_elim {nodes : List α} {edges : List (α × α × Int)}
    {s t : α} {k : Nat} {st' : EKState α}
    (h : ekIterState nodes edges s t (k + 1) = some st') :
    ∃ stk, ekIterState nodes edges s t k = some stk ∧
      ekStep nodes (adjOf edges) s t stk = .next st' := by
  simp only [ekIterState, ekIter] at h
  obtain ⟨stk, hk, h2⟩ := Option.bind_eq_some.mp h
  cases hs : ekStep nodes (adjOf edges) s t stk with
  | next st1 =>
    rw [hs] at h2
    injection h2 with h2
    subst h2
    exact ⟨stk, hk, hs⟩
  | done st1 => rw [hs] at h2; exact absurd h2 (by simp)
  | stuck => rw [hs] at h2; exact absurd h2 (by simp)

/-- A `.next` step appends exactly one history entry whose snapshot is the
updated residual table. -/
lemma ekStep_next_history {nodes : List α} {adj : α → List α} {s t : α}
    {st st' : EKState α} (h : ekStep nodes adj s t st = .next st') :
    ∃ x, st'.history = st.history ++ [x] ∧
      x.residual_snapshot = st'.cap := by
  obtain ⟨p, rfl⟩ := ekStep_next_flow h
  exact ⟨_, rfl, rfl⟩

lemma ekIterState_hist_length {nodes : List α} {edges : List (α × α × Int)}
    {s t : α} :
    ∀ (k : Nat) (st : EKState α),
      ekIterState nodes edges s t k = some st → st.history.length = k := by
  intro k
  induction k with
  | zero =>
    intro st h
    simp only [ekIterState, ekIter] at h
    injection h with h
    rw [← h]
    rfl
  | succ k ih =>
    intro st h
    obtain ⟨stk, hk, hs⟩ := ekIterState_succ_elim h
    obtain ⟨x, hx, _⟩ := ekStep_next_history hs
    rw [hx]
    simp [ih stk hk]

/-- History entries are stable: a later iteration state keeps every entry
of an earlier one unchanged (history is append-only). -/
lemma ekIterState_hist_stable {nodes : List α} {edges : List (α × α × Int)}
    {s t : α} :
    ∀ (d k : Nat) (st st' : EKState α),
      ekIterState nodes edges s t k = some st →
      ekIterState nodes edges s t (k + d) = some st' →
      ∀ (i : Nat) (h : HistoryStep α),
        st.history[i]? = some h → st'.history[i]? = some h := by
  intro d
  induction d with
  | zero =>
    intro k st st' h1 h2 i h hh
    rw [Nat.add_zero, h1] at h2
    injection h2 with h2
    rw [← h2]
    exact hh
  | succ d ih =>
    intro k st st' h1 h2 i h hh
    obtain ⟨st'', h2', hs⟩ := ekIterState_succ_elim (k := k + d) h2
    have hmid := ih k st st'' h1 h2' i h hh
    obtain ⟨x, hx, _⟩ := ekStep_next_history hs
    rw [hx]
    have hlt : i < st''.history.length := by
      by_contra hge
      rw [List.getElem?_eq_none (Nat.le_of_not_lt hge)] at hmid
      exact Option.noConfusion hmid
    rw [List.getElem?_append_left hlt]
    exact hmid

/-- The terminal loop state is one of the iteration states. -/
lemma ekRun_to_iter {nodes : List α} {edges : List (α × α × Int)}
    {s t : α} :
    ∀ (F : Nat) (k0 : Nat) (stf : EKState α),
      (∀ st0, ekIterState nodes edges s t k0 = some st0 →
        ekRun nodes (adjOf edges) s t F st0 = some stf →
        ∃ k, ekIterState nodes edges s t k = some stf) := by
  intro F
  induction F with
  | zero => intro k0 stf st0 _ h; exact absurd h (by simp [ekRun])
  | succ F ih =>
    intro k0 stf st0 hiter h
    simp only [ekRun] at h
    cases hs : ekStep nodes (adjOf edges) s t st0 with
    | done st' =>
      rw [hs] at h
      injection h with h
      obtain ⟨rfl, _⟩ := ekStep_done_elim hs
      exact ⟨k0, h ▸ hiter⟩
    | next st' =>
      rw [hs] at h
      have hiter' : ekIterState nodes edges s t (k0 + 1) = some st' := by
        simp only [ekIterState, ekIter]
        show (ekIter nodes (adjOf edges) s t (ekInit edges) k0).bind _ = _
        rw [show ekIter nodes (adjOf edges) s t (ekInit edges) k0 =
          some st0 from hiter]
        simp [hs]
      exact ih (k0 + 1) stf st' hiter' h
    | stuck => rw [hs] at h; exact absurd h (by simp)

/-- Claim C9: history snapshots are independent values.  (a) Every
recorded snapshot equals the residual capacities immediately after the
step that created it; (b) later augmentation steps leave every earlier
history entry (hence its snapshot) unchanged; (c) the last entry's
snapshot equals the current residual state, and (d) the terminal state of
a run is an iteration state, so (a)–(c) apply to the returned history and
the terminal residual table. -/
theorem c9_snapshot_integrity (nodes : List α) (edges : List (α × α × Int))
    (s t : α) :
    (∀ (k : Nat) (st : EKState α), ekIterState nodes edges s t k = some st →
      (∀ (i : Nat) (h : HistoryStep α), st.history[i]? = some h →
        ∃ sti, ekIterState nodes edges s t (i + 1) = some sti ∧
          h.residual_snapshot = sti.cap) ∧
      (∀ (k' : Nat) (st' : EKState α),
        ekIterState nodes edges s t k' = some st' → k ≤ k' →
        ∀ (i : Nat) (h : HistoryStep α),
          st.history[i]? = some h → st'.history[i]? = some h) ∧
      (∀ h, st.history.getLast? = some h → h.residual_snapshot = st.cap)) ∧
    (∀ stf, edmondsKarpFull nodes edges s t = some stf →
      ∃ k, ekIterState nodes edges s t k = some stf) := by
  constructor
  · intro k
    induction k with
    | zero =>
      intro st hst
      simp only [ekIterState, ekIter] at hst
      injection hst with hst
      refine ⟨?_, ?_, ?_⟩
      · intro i h hh
        rw [← hst] at hh
        simp [ekInit] at hh
      · intro k' st' h2 _ i h hh
        obtain ⟨d, rfl⟩ : ∃ d, k' = 0 + d := ⟨k', by omega⟩
        exact ekIterState_hist_stable d 0 st st'
          (by simp [ekIterState, ekIter, hst]) h2 i h hh
      · intro h hh
        rw [← hst] at hh
        simp [ekInit] at hh
    | succ k ih =>
      intro st hst
      obtain ⟨stk, hk, hs⟩ := ekIterState_succ_elim hst
      obtain ⟨x, hx, hxsnap⟩ := ekStep_next_history hs
      have hlen : stk.history.length = k := ekIterState_hist_length k stk hk
      refine ⟨?_, ?_, ?_⟩
      · intro i h hh
        rw [hx] at hh
        by_cases hi : i < stk.history.length
        · rw [List.getElem?_append_left hi] at hh
          exact ((ih stk hk).1) i h hh
        · have hi2 : i < stk.history.length + 1 := by
            have := List.getElem?_eq_some_iff.mp hh
            obtain ⟨hb, _⟩ := this
            simpa using hb
          have hieq : i = k := by omega
          subst hieq
          have : (stk.history ++ [x])[i]? = some x := by
            rw [List.getElem?_append_right (by omega)]
            simp [hlen]
          rw [this] at hh
          injection hh with hh
          exact ⟨st, hst, by rw [← hh]; exact hxsnap⟩
      · intro k' st' h2 hle i h hh
        obtain ⟨d, rfl⟩ : ∃ d, k' = (k + 1) + d := ⟨k' - (k + 1), by omega⟩
        exact ekIterState_hist_stable d (k + 1) st st' hst h2 i h hh
      · intro h hh
        rw [hx, List.getLast?_append_cons, List.getLast?_singleton] at hh
        injection hh with hh
        rw [← hh]
        exact hxsnap
  · intro stf hfull
    exact ekRun_to_iter (ekFuel nodes edges s) 0 stf (ekInit edges)
      (by simp [ekIterState, ekIter]) hfull

/-- Witness for C9: after the single augmentation on a one-edge graph, the
last history snapshot agrees with the live residual table (checked at a
concrete pair through the theorem). -/
theorem c9_snapshot_integrity_witness :
    (ekIterState [0, 1] [(0, 1, 5)] 0 1 1).map
      (fun st => (st.history.getLast?).map
        (fun h => decide (h.residual_snapshot 0 1 = st.cap 0 1))) =
      some (some true) := by
  have hsome : (ekIterState [0, 1] [(0, 1, 5)] 0 1 1).isSome = true := by
    decide
  cases hiter : ekIterState [0, 1] [(0, 1, 5)] 0 1 1 with
  | none => rw [hiter] at hsome; exact Bool.noConfusion hsome
  | some st =>
    have hlen : st.history.length = 1 :=
      ekIterState_hist_length 1 st hiter
    have hne : st.history ≠ [] := by
      intro hh
      rw [hh] at hlen
      exact absurd hlen (by decide)
    cases hlast : st.history.getLast? with
    | none =>
      have := List.getLast?_isSome.mpr hne
      rw [hlast] at this
      exact Bool.noConfusion this
    | some h =>
      have hsnap :=
        ((c9_snapshot_integrity [0, 1] [(0, 1, 5)] 0 1).1 1 st hiter).2.2
          h hlast
      simp only [Option.map_some']
      rw [hlast]
      simp only [Option.map_some', Option.some.injEq]
      rw [hsnap]
      simp

end SnapshotClaims

section BfsShortestLemmas

variable {α : Type} [DecidableEq α]

/-- Existence of a walk of length `n` from `s` using only edges of
strictly positive residual capacity (an augmenting path, per the spec's
glossary). -/
inductive PosPath (cap : α → α → Int) (s : α) : α → Nat → Prop where
  | refl : PosPath cap s s 0
  | tail {u v : α} {n : Nat} :
      PosPath cap s u n → 0 < cap u v → PosPath cap s v (n + 1)

/-- Number of unvisited nodes (used as the BFS fuel measure). -/
def countU (nodes : List α) (par : α → Option α) : Nat :=
  (nodes.filter (fun v => decide (par v = none))).length

lemma length_filter_lt {p : α → Bool} :
    ∀ (l : List α) (x : α), x ∈ l → p x = false →
      (l.filter p).length < l.length := by
  intro l
  induction l with
  | nil => intro x hx _; exact absurd hx (by simp)
  | cons a l ih =>
    intro x hx hpx
    rcases List.mem_cons.mp hx with rfl | hx'
    · rw [List.filter_cons, if_neg (by simp [hpx])]
      simp only [List.length_cons]
      exact Nat.lt_succ_of_le (List.length_filter_le p l)
    · rw [List.filter_cons]
      by_cases hpa : p a = true
      · rw [if_pos (by simp [hpa])]
        simpa using ih x hx' hpx
      · rw [if_neg (by simp at hpa ⊢; exact hpa)]
        exact Nat.lt_succ_of_lt (ih x hx' hpx)

lemma countU_update {nodes : List α} {par : α → Option α} {v : α} (u : α)
    (hnd : nodes.Nodup) (hv : v ∈ nodes) (hnone : par v = none) :
    countU nodes (fupd par v (some u)) + 1 = countU nodes par := by
  unfold countU
  induction nodes with
  | nil => exact absurd hv (by simp)
  | cons n ns ih =>
    rw [List.nodup_cons] at hnd
    rcases List.mem_cons.mp hv with rfl | hv'
    · rw [List.filter_cons, List.filter_cons]
      rw [if_neg (by simp [fupd]), if_pos (by simp [hnone])]
      have hcong : ns.filter (fun x => decide (fupd par v (some u) x = none)) =
          ns.filter (fun x => decide (par x = none)) := by
        apply List.filter_congr
        intro x hx
        have hxv : x ≠ v := fun hh => hnd.1 (hh ▸ hx)
        rw [fupd_other _ _ hxv]
      rw [hcong]
      simp
    · have hnv : n ≠ v := fun hh => hnd.1 (hh ▸ hv')
      rw [List.filter_cons, List.filter_cons]
      have hsame : (decide (fupd par v (some u) n = none)) =
          (decide (par n = none)) := by
        rw [fupd_other _ _ hnv]
      rw [hsame]
      by_cases hn : par n = none
      · rw [if_pos (by simp [hn]), if_pos (by simp [hn])]
        simp only [List.length_cons]
        have := ih hnd.2 hv'
        omega
      · rw [if_neg (by simp [hn]), if_neg (by simp [hn])]
        exact ih hnd.2 hv'

/-- The breadth-first shortest-path invariant of the BFS loop: on top of
the basic facts, every visited node is a node, carries a parent chain of
recorded length `D v`, that length is realised by a positive-capacity walk
and is minimal among all such walks; the queue splits into two consecutive
depth blocks `d, d+1`; fully processed nodes have all their
positive-capacity successors visited; the sink is unvisited and is nobody's
parent (the BFS stops the moment it is discovered). -/
structure BfsShortest (cap : α → α → Int) (adj : α → List α)
    (nodes : List α) (s t : α) (par : α → Option α) (q : List α)
    (D : α → Nat) : Prop where
  basic : BfsBasic cap adj s par q
  visNodes : ∀ v, par v ≠ none → v ∈ nodes
  depthChain : ∀ v, par v ≠ none →
    ∃ p, buildPath par s (D v) v = some p ∧ p.length = D v
  depthPath : ∀ v, par v ≠ none → PosPath cap s v (D v)
  depthMin : ∀ v, par v ≠ none → ∀ m, PosPath cap s v m → D v ≤ m
  blocks : ∃ d q1 q2, q = q1 ++ q2 ∧ (∀ v ∈ q1, D v = d) ∧
    (∀ v ∈ q2, D v = d + 1)
  closed : ∀ x, par x ≠ none → x ∉ q → ∀ w, 0 < cap x w → par w ≠ none
  sinkfree : t ≠ s → par t = none
  parNotT : t ≠ s → ∀ v, par v ≠ some t

/-- Reachability bound: any node reachable by a positive-capacity walk of
length `m` is either already visited, or the walk enters the queue at a
node of depth below `m`. -/
lemma bfs_reach_bound {cap : α → α → Int} {adj : α → List α}
    {nodes : List α} {s t : α} {par : α → Option α} {q : List α}
    {D : α → Nat} (hinv : BfsShortest cap adj nodes s t par q D) :
    ∀ (w : α) (m : Nat), PosPath cap s w m →
      par w ≠ none ∨ ∃ v ∈ q, D v + 1 ≤ m := by
  intro w m hpath
  induction hpath with
  | refl =>
    left
    rw [hinv.basic.src]
    exact fun h => Option.noConfusion h
  | tail hprev hcap ih =>
    rename_i u w' n
    rcases ih with hvis | ⟨v, hvq, hvd⟩
    · by_cases huq : u ∈ q
      · right
        exact ⟨u, huq, by
          have := hinv.depthMin u hvis n hprev
          omega⟩
      · left
        exact hinv.closed u hvis huq w' hcap
    · right
      exact ⟨v, hvq, by omega⟩

/-- Mid-scan invariant while the dequeued node `u` (of depth `d`) has the
prefix `dn` of its adjacency list already examined. The pre-dequeue state
`(par₀, u :: q₀, D₀)` is frozen; `(par, q, D)` is the live state. Newly
visited nodes are exactly the queue suffix beyond `q₀`: children of `u`
at depth `d + 1`, none of them the sink. -/
structure ScanMid (cap : α → α → Int) (adj : α → List α) (nodes : List α)
    (s t u : α) (d : Nat) (par₀ : α → Option α) (q₀ : List α) (D₀ : α → Nat)
    (dn : List α) (par : α → Option α) (q : List α) (D : α → Nat) :
    Prop where
  pre : BfsShortest cap adj nodes s t par₀ (u :: q₀) D₀
  hud : D₀ u = d
  hq0 : ∃ A B, q₀ = A ++ B ∧ (∀ v ∈ A, D₀ v = d) ∧ (∀ v ∈ B, D₀ v = d + 1)
  hmin : ∀ v ∈ u :: q₀, d ≤ D₀ v
  basic : BfsBasic cap adj s par q
  visNodes : ∀ v, par v ≠ none → v ∈ nodes
  mono : ∀ v y, par₀ v = some y → par v = some y
  Dold : ∀ v, par₀ v ≠ none → D v = D₀ v
  newsChar : ∀ v, par₀ v = none → par v ≠ none →
    par v = some u ∧ 0 < cap u v ∧ D v = d + 1 ∧ v ≠ t
  qEq : ∃ news, q = q₀ ++ news ∧
    (∀ v ∈ news, par₀ v = none ∧ par v ≠ none) ∧
    (∀ v, par₀ v = none → par v ≠ none → v ∈ news)
  doneClosed : ∀ v ∈ dn, 0 < cap u v → par v ≠ none
  fuelB : q.length + countU nodes par + 1 ≤
    q₀.length + 1 + countU nodes par₀
  depthChain : ∀ v, par v ≠ none →
    ∃ p, buildPath par s (D v) v = some p ∧ p.length = D v
  depthPath : ∀ v, par v ≠ none → PosPath cap s v (D v)
  depthMin : ∀ v, par v ≠ none → ∀ m, PosPath cap s v m → D v ≤ m

/-- Effect of one full neighbour scan (lines 26–32): if the sink was not
discovered the shortest-path invariant is re-established on the grown
queue and the fuel measure has strictly dropped; if it was discovered the
partial parent table already reconstructs a minimum-length
positive-capacity walk to the sink, and the sink is nobody's parent. -/
lemma bfsScan_shortest {cap : α → α → Int} {adj : α → List α}
    {nodes : List α} {s t u : α} {d : Nat} {par₀ : α → Option α}
    {q₀ : List α} {D₀ : α → Nat} (hnd : nodes.Nodup)
    (hcov : ∀ x w, 0 < cap x w → w ∈ adj x)
    (hadjn : ∀ x, ∀ w ∈ adj x, w ∈ nodes) :
    ∀ (todo dn : List α) (par : α → Option α) (q : List α) (D : α → Nat),
      ScanMid cap adj nodes s t u d par₀ q₀ D₀ dn par q D →
      adj u = dn ++ todo →
      ((bfsScan cap t u todo par q).2.2 = false →
        ∃ E, BfsShortest cap adj nodes s t (bfsScan cap t u todo par q).1
            (bfsScan cap t u todo par q).2.1 E ∧
          (bfsScan cap t u todo par q).2.1.length +
            countU nodes (bfsScan cap t u todo par q).1 + 1 ≤
            q₀.length + 1 + countU nodes par₀) ∧
      ((bfsScan cap t u todo par q).2.2 = true →
        t ≠ s ∧ (∀ w, (bfsScan cap t u todo par q).1 w ≠ some t) ∧
        ∃ n p, buildPath (bfsScan cap t u todo par q).1 s n t = some p ∧
          p.length = n ∧ ∀ m, PosPath cap s t m → n ≤ m) := by
  intro todo
  induction todo with
  | nil =>
    intro dn par q D m hsplit
    rw [List.append_nil] at hsplit
    simp only [bfsScan]
    refine ⟨fun _ => ?_, fun hff => Bool.noConfusion hff⟩
    obtain ⟨news, hq, hfwd, hbwd⟩ := m.qEq
    obtain ⟨A, B, hAB, hA, hB⟩ := m.hq0
    refine ⟨D, ⟨m.basic, m.visNodes, m.depthChain, m.depthPath, m.depthMin,
      ?_, ?_, ?_, ?_⟩, m.fuelB⟩
    · refine ⟨d, A, B ++ news, ?_, ?_, ?_⟩
      · rw [hq, hAB, List.append_assoc]
      · intro w hw
        have hwq : w ∈ u :: q₀ := List.mem_cons_of_mem _
          (by rw [hAB]; exact List.mem_append.mpr (Or.inl hw))
        have hwvis : par₀ w ≠ none := m.pre.basic.qvis w hwq
        rw [m.Dold w hwvis]
        exact hA w hw
      · intro w hw
        rcases List.mem_append.mp hw with hw | hw
        · have hwq : w ∈ u :: q₀ := List.mem_cons_of_mem _
            (by rw [hAB]; exact List.mem_append.mpr (Or.inr hw))
          have hwvis : par₀ w ≠ none := m.pre.basic.qvis w hwq
          rw [m.Dold w hwvis]
          exact hB w hw
        · obtain ⟨hw0, hwv⟩ := hfwd w hw
          exact (m.newsChar w hw0 hwv).2.2.1
    · intro x hx hxq w hw
      by_cases hxu : x = u
      · rw [hxu] at hw
        have hwdone : w ∈ dn := by
          rw [← hsplit]
          exact hcov u w hw
        exact m.doneClosed w hwdone hw
      · by_cases hx₀ : par₀ x = none
        · refine absurd ?_ hxq
          rw [hq]
          exact List.mem_append.mpr (Or.inr (hbwd x hx₀ hx))
        · have hxq₀ : x ∉ u :: q₀ := by
            intro hmem
            rcases List.mem_cons.mp hmem with rfl | hmem'
            · exact hxu rfl
            · exact hxq (by rw [hq]; exact List.mem_append.mpr (Or.inl hmem'))
          have hw₀ := m.pre.closed x hx₀ hxq₀ w hw
          obtain ⟨y, hy⟩ := Option.ne_none_iff_exists'.mp hw₀
          rw [m.mono w y hy]
          exact fun hh => Option.noConfusion hh
    · intro hts
      by_cases h₀ : par₀ t = none
      · by_cases hvt : par t = none
        · exact hvt
        · exact absurd rfl (m.newsChar t h₀ hvt).2.2.2
      · exact absurd (m.pre.sinkfree hts) h₀
    · intro hts w hw
      have hu₀ : par₀ u ≠ none := m.pre.basic.qvis u (List.mem_cons_self _ _)
      by_cases hw₀ : par₀ w = none
      · have hch := m.newsChar w hw₀
          (by rw [hw]; exact fun hh => Option.noConfusion hh)
        have h1 := hch.1
        rw [hw] at h1
        injection h1 with h1
        rw [← h1] at hu₀
        exact hu₀ (m.pre.sinkfree hts)
      · obtain ⟨y, hy⟩ := Option.ne_none_iff_exists'.mp hw₀
        have h2 := m.mono w y hy
        rw [hw] at h2
        injection h2 with h2
        rw [← h2] at hy
        exact m.pre.parNotT hts w hy
  | cons v vs ih =>
    intro dn par q D m hsplit
    simp only [bfsScan]
    by_cases hc : par v = none ∧ 0 < cap u v
    · rw [if_pos hc]
      have hvadj : v ∈ adj u := by
        rw [hsplit]
        exact List.mem_append.mpr (Or.inr (List.mem_cons_self _ _))
      have hvns : v ≠ s := fun hh => by
        rw [hh, m.basic.src] at hc
        exact Option.noConfusion hc.1
      have hu₀ : par₀ u ≠ none := m.pre.basic.qvis u (List.mem_cons_self _ _)
      have huvis : par u ≠ none := by
        obtain ⟨y, hy⟩ := Option.ne_none_iff_exists'.mp hu₀
        rw [m.mono u y hy]
        exact fun hh => Option.noConfusion hh
      have hpv₀ : par₀ v = none := by
        by_contra hcon
        obtain ⟨y, hy⟩ := Option.ne_none_iff_exists'.mp hcon
        rw [m.mono v y hy] at hc
        exact Option.noConfusion hc.1
      have hvmin : ∀ m', PosPath cap s v m' → d + 1 ≤ m' := by
        intro m' hp
        rcases bfs_reach_bound m.pre v m' hp with hvis | ⟨x, hxq, hxd⟩
        · exact absurd hpv₀ hvis
        · have := m.hmin x hxq
          omega
      have hDu : D u = d := by rw [m.Dold u hu₀, m.hud]
      obtain ⟨pu, hpu, hpulen⟩ := m.depthChain u huvis
      rw [hDu] at hpu hpulen
      have hpu' : buildPath (fupd par v (some u)) s d u = some pu :=
        buildPath_update_fresh u hc.1 d u pu hpu
      have hparv : fupd par v (some u) v = some u := by simp [fupd]
      have hchainv : buildPath (fupd par v (some u)) s (d + 1) v =
          some (pu ++ [(u, v)]) := by
        rw [buildPath_succ_some hvns hparv, hpu']
        rfl
      have hnewbas : BfsBasic cap adj s (fupd par v (some u)) (q ++ [v]) := by
        refine ⟨?_, ?_, ?_, ?_⟩
        · rw [fupd_other _ _ (Ne.symm hvns)]; exact m.basic.src
        · intro w hw
          rcases List.mem_append.mp hw with hw | hw
          · by_cases hwv : w = v
            · subst hwv; simp [fupd]
            · rw [fupd_other _ _ hwv]; exact m.basic.qvis w hw
          · rw [List.mem_singleton] at hw
            subst hw
            simp [fupd]
        · intro w y hw
          by_cases hwv : w = v
          · subst hwv
            rw [fupd_same] at hw
            injection hw with hw
            subst hw
            exact Or.inr ⟨hc.2, hvadj⟩
          · rw [fupd_other _ _ hwv] at hw
            exact m.basic.edge w y hw
        · intro w hw
          by_cases hwv : w = v
          · subst hwv
            exact ⟨d + 1, pu ++ [(u, w)], hchainv⟩
          · rw [fupd_other _ _ hwv] at hw
            obtain ⟨f, p, hp⟩ := m.basic.reach w hw
            exact ⟨f, p, buildPath_update_fresh u hc.1 f w p hp⟩
      by_cases hvt : v = t
      · rw [if_pos hvt]
        refine ⟨fun hff => Bool.noConfusion hff, fun _ => ?_⟩
        have hts : t ≠ s := hvt ▸ hvns
        have hut : u ≠ t := by
          intro hh
          rw [hh] at hu₀
          exact hu₀ (m.pre.sinkfree hts)
        refine ⟨hts, ?_, d + 1, pu ++ [(u, v)], ?_, ?_, ?_⟩
        · show ∀ w, fupd par v (some u) w ≠ some t
          intro w hw
          by_cases hwv : w = v
          · subst hwv
            rw [fupd_same] at hw
            injection hw with hw
            exact hut hw
          · rw [fupd_other _ _ hwv] at hw
            by_cases hw₀ : par₀ w = none
            · have hch := m.newsChar w hw₀
                (by rw [hw]; exact fun hh => Option.noConfusion hh)
              have h1 := hch.1
              rw [hw] at h1
              injection h1 with h1
              exact hut h1.symm
            · obtain ⟨y, hy⟩ := Option.ne_none_iff_exists'.mp hw₀
              have h2 := m.mono w y hy
              rw [hw] at h2
              injection h2 with h2
              rw [← h2] at hy
              exact m.pre.parNotT hts w hy
        · rw [← hvt]
          exact hchainv
        · rw [List.length_append, hpulen]
          rfl
        · intro m' hp
          exact hvmin m' (by rw [hvt]; exact hp)
      · rw [if_neg hvt]
        obtain ⟨news, hq, hfwd, hbwd⟩ := m.qEq
        have hvnodes : v ∈ nodes := hadjn u v hvadj
        have hcnt := countU_update u hnd hvnodes hc.1
        have hm' : ScanMid cap adj nodes s t u d par₀ q₀ D₀ (dn ++ [v])
            (fupd par v (some u)) (q ++ [v]) (fupd D v (d + 1)) := by
          refine ⟨m.pre, m.hud, m.hq0, m.hmin, hnewbas, ?_, ?_, ?_, ?_, ?_,
            ?_, ?_, ?_, ?_, ?_⟩
          · intro w hw
            by_cases hwv : w = v
            · subst hwv; exact hvnodes
            · rw [fupd_other _ _ hwv] at hw
              exact m.visNodes w hw
          · intro w y hy
            have hwv : w ≠ v := by
              intro hh
              rw [hh, hpv₀] at hy
              exact Option.noConfusion hy
            rw [fupd_other _ _ hwv]
            exact m.mono w y hy
          · intro w hw
            have hwv : w ≠ v := by
              intro hh
              rw [hh, hpv₀] at hw
              exact hw rfl
            rw [fupd_other _ _ hwv]
            exact m.Dold w hw
          · intro w hw₀ hwv'
            by_cases hwv : w = v
            · subst hwv
              refine ⟨by simp [fupd], hc.2, by simp [fupd], hvt⟩
            · rw [fupd_other _ _ hwv] at hwv'
              obtain ⟨e1, e2, e3, e4⟩ := m.newsChar w hw₀ hwv'
              refine ⟨?_, e2, ?_, e4⟩
              · rw [fupd_other _ _ hwv]; exact e1
              · rw [fupd_other _ _ hwv]; exact e3
          · refine ⟨news ++ [v], ?_, ?_, ?_⟩
            · rw [hq, List.append_assoc]
            · intro w hw
              rcases List.mem_append.mp hw with hw | hw
              · obtain ⟨e1, e2⟩ := hfwd w hw
                refine ⟨e1, ?_⟩
                by_cases hwv : w = v
                · subst hwv; simp [fupd]
                · rw [fupd_other _ _ hwv]; exact e2
              · rw [List.mem_singleton] at hw
                subst hw
                exact ⟨hpv₀, by simp [fupd]⟩
            · intro w hw₀ hwv'
              by_cases hwv : w = v
              · subst hwv
                exact List.mem_append.mpr (Or.inr (List.mem_singleton.mpr rfl))
              · rw [fupd_other _ _ hwv] at hwv'
                exact List.mem_append.mpr (Or.inl (hbwd w hw₀ hwv'))
          · intro w hw hpos
            rcases List.mem_append.mp hw with hw | hw
            · have := m.doneClosed w hw hpos
              by_cases hwv : w = v
              · subst hwv; simp [fupd]
              · rw [fupd_other _ _ hwv]; exact this
            · rw [List.mem_singleton] at hw
              subst hw
              simp [fupd]
          · have hfb := m.fuelB
            simp only [List.length_append, List.length_singleton]
            omega
          · intro w hw
            by_cases hwv : w = v
            · subst hwv
              refine ⟨pu ++ [(u, w)], ?_, ?_⟩
              · rw [fupd_same]
                exact hchainv
              · rw [fupd_same, List.length_append, hpulen]
                rfl
            · rw [fupd_other _ _ hwv] at hw ⊢
              obtain ⟨p, hp, hpl⟩ := m.depthChain w hw
              exact ⟨p, buildPath_update_fresh u hc.1 _ w p hp, hpl⟩
          · intro w hw
            by_cases hwv : w = v
            · subst hwv
              rw [fupd_same]
              exact PosPath.tail (hDu ▸ m.depthPath u huvis) hc.2
            · rw [fupd_other _ _ hwv] at hw ⊢
              exact m.depthPath w hw
          · intro w hw m' hp
            by_cases hwv : w = v
            · subst hwv
              rw [fupd_same]
              exact hvmin m' hp
            · rw [fupd_other _ _ hwv] at hw ⊢
              exact m.depthMin w hw m' hp
        have hsplit' : adj u = (dn ++ [v]) ++ vs := by
          rw [hsplit, List.append_assoc]
          rfl
        exact ih (dn ++ [v]) (fupd par v (some u)) (q ++ [v])
          (fupd D v (d + 1)) hm' hsplit'
    · rw [if_neg hc]
      have hm' : ScanMid cap adj nodes s t u d par₀ q₀ D₀ (dn ++ [v])
          par q D := by
        refine ⟨m.pre, m.hud, m.hq0, m.hmin, m.basic, m.visNodes, m.mono,
          m.Dold, m.newsChar, m.qEq, ?_, m.fuelB, m.depthChain, m.depthPath,
          m.depthMin⟩
        intro w hw hpos
        rcases List.mem_append.mp hw with hw | hw
        · exact m.doneClosed w hw hpos
        · rw [List.mem_singleton] at hw
          subst hw
          intro hnone
          exact hc ⟨hnone, hpos⟩
      have hsplit' : adj u = (dn ++ [v]) ++ vs := by
        rw [hsplit, List.append_assoc]
        rfl
      exact ih (dn ++ [v]) par q D hm' hsplit'

/-- The BFS main loop under the shortest-path invariant: a `False` result
means no positive-capacity walk reaches the sink at all, a `True` result
means the parent table reconstructs a minimum-length one, and in either
case the sink is recorded as nobody's parent (it is found, not
expanded). -/
lemma bfsLoop_shortest {cap : α → α → Int} {adj : α → List α}
    {nodes : List α} {s t : α} (hnd : nodes.Nodup)
    (hcov : ∀ x w, 0 < cap x w → w ∈ adj x)
    (hadjn : ∀ x, ∀ w ∈ adj x, w ∈ nodes) :
    ∀ (f : Nat) (q : List α) (par : α → Option α) (D : α → Nat),
      BfsShortest cap adj nodes s t par q D →
      q.length + countU nodes par ≤ f →
      ((bfsLoop cap adj t f q par).1 = false → t ≠ s →
        ∀ m, ¬ PosPath cap s t m) ∧
      ((bfsLoop cap adj t f q par).1 = true →
        t ≠ s ∧ ∃ n p,
          buildPath (bfsLoop cap adj t f q par).2 s n t = some p ∧
          p.length = n ∧ ∀ m, PosPath cap s t m → n ≤ m) ∧
      (t ≠ s → ∀ v, (bfsLoop cap adj t f q par).2 v ≠ some t) := by
  intro f
  induction f with
  | zero =>
    intro q par D hinv hfuel
    have hq : q = [] := List.length_eq_zero.mp (by omega)
    subst hq
    refine ⟨?_, fun hff => Bool.noConfusion hff,
      fun hts v => hinv.parNotT hts v⟩
    intro _ hts m hp
    rcases bfs_reach_bound hinv t m hp with hvis | ⟨x, hxq, _⟩
    · exact hvis (hinv.sinkfree hts)
    · exact absurd hxq (by simp)
  | succ f ih =>
    intro q par D hinv hfuel
    cases q with
    | nil =>
      refine ⟨?_, fun hff => Bool.noConfusion hff,
        fun hts v => hinv.parNotT hts v⟩
      intro _ hts m hp
      rcases bfs_reach_bound hinv t m hp with hvis | ⟨x, hxq, _⟩
      · exact hvis (hinv.sinkfree hts)
      · exact absurd hxq (by simp)
    | cons u q₀ =>
      simp only [bfsLoop]
      obtain ⟨dd, q1, q2, hsp, h1, h2⟩ := hinv.blocks
      have hnorm : ∃ d A B, D u = d ∧ q₀ = A ++ B ∧ (∀ v ∈ A, D v = d) ∧
          (∀ v ∈ B, D v = d + 1) ∧ (∀ v ∈ u :: q₀, d ≤ D v) := by
        cases q1 with
        | nil =>
          simp only [List.nil_append] at hsp
          refine ⟨dd + 1, q₀, [], ?_, (List.append_nil q₀).symm, ?_, ?_, ?_⟩
          · exact h2 u (by rw [← hsp]; exact List.mem_cons_self _ _)
          · intro v hv
            exact h2 v (by rw [← hsp]; exact List.mem_cons_of_mem _ hv)
          · intro v hv; exact absurd hv (by simp)
          · intro v hv
            rw [h2 v (by rw [← hsp]; exact hv)]
        | cons w A =>
          rw [List.cons_append] at hsp
          injection hsp with he hq'
          refine ⟨dd, A, q2, ?_, hq', ?_, ?_, ?_⟩
          · rw [he]
            exact h1 w (List.mem_cons_self _ _)
          · intro v hv
            exact h1 v (List.mem_cons_of_mem _ hv)
          · intro v hv
            exact h2 v hv
          · intro v hv
            rcases List.mem_cons.mp hv with rfl | hv'
            · rw [he, h1 w (List.mem_cons_self _ _)]
            · rw [hq'] at hv'
              rcases List.mem_append.mp hv' with hv'' | hv''
              · rw [h1 v (List.mem_cons_of_mem _ hv'')]
              · rw [h2 v hv'']
                omega
      obtain ⟨d, A, B, hud, hABq, hA, hB, hdmin⟩ := hnorm
      have hbas' : BfsBasic cap adj s par q₀ :=
        ⟨hinv.basic.src,
          fun v hv => hinv.basic.qvis v (List.mem_cons_of_mem _ hv),
          hinv.basic.edge, hinv.basic.reach⟩
      have hm0 : ScanMid cap adj nodes s t u d par q₀ D [] par q₀ D := by
        refine ⟨hinv, hud, ⟨A, B, hABq, hA, hB⟩, hdmin, hbas', hinv.visNodes,
          fun v y h => h, fun v _ => rfl, ?_, ?_, ?_, ?_, hinv.depthChain,
          hinv.depthPath, hinv.depthMin⟩
        · intro v h1' h2'
          exact absurd h1' h2'
        · refine ⟨[], (List.append_nil q₀).symm, ?_, ?_⟩
          · intro v hv
            exact absurd hv (by simp)
          · intro v h1' h2'
            exact absurd h1' h2'
        · intro v hv
          exact absurd hv (by simp)
        · omega
      obtain ⟨hfalse, htrue⟩ :=
        bfsScan_shortest hnd hcov hadjn (adj u) [] par q₀ D hm0 (by simp)
      by_cases hfound : (bfsScan cap t u (adj u) par q₀).2.2 = true
      · rw [if_pos hfound]
        obtain ⟨hts, hnot, n, p, hbp, hlen, hminp⟩ := htrue hfound
        exact ⟨fun hff => Bool.noConfusion hff,
          fun _ => ⟨hts, n, p, hbp, hlen, hminp⟩, fun _ v => hnot v⟩
      · rw [if_neg hfound]
        rw [Bool.not_eq_true] at hfound
        obtain ⟨E, hinv', hfuel'⟩ := hfalse hfound
        have hfuel'' : (bfsScan cap t u (adj u) par q₀).2.1.length +
            countU nodes (bfsScan cap t u (adj u) par q₀).1 ≤ f := by
          simp only [List.length_cons] at hfuel
          omega
        exact ih (bfsScan cap t u (adj u) par q₀).2.1
          (bfsScan cap t u (adj u) par q₀).1 E hinv' hfuel''

end BfsShortestLemmas

section ShortestPathClaim

variable {α : Type} [DecidableEq α]

/-- C6: `_bfs_capacity` performs a breadth-first traversal from the
source using only edges of strictly positive residual capacity, recording
one predecessor per visited node (every recorded predecessor edge has
positive capacity); on a `True` result the recorded predecessors
reconstruct a positive-capacity path from source to sink of minimum
length among all positive-capacity walks; on a `False` result no
positive-capacity walk from source to sink exists at all; and the search
stops the instant the sink is discovered, never expanding it, so the sink
is recorded as nobody's predecessor. Hypotheses: the node list is
duplicate-free and contains the source, and the adjacency lists cover all
positive-capacity edges and stay inside the node list — all guaranteed at
the engine's call sites. -/
theorem c6_bfs_contract (nodes : List α) (cap : α → α → Int)
    (adj : α → List α) (s t : α) (hnd : nodes.Nodup) (hs : s ∈ nodes)
    (hcov : ∀ u v, 0 < cap u v → v ∈ adj u)
    (hadjn : ∀ u, ∀ v ∈ adj u, v ∈ nodes) :
    (∀ v u, (bfsCapacity nodes cap adj s t).2 v = some u →
      v = s ∨ 0 < cap u v) ∧
    ((bfsCapacity nodes cap adj s t).1 = true →
      ∃ p, buildPath (bfsCapacity nodes cap adj s t).2 s nodes.length t =
          some p ∧ chainOK s p t ∧ (∀ e ∈ p, 0 < cap e.1 e.2) ∧
        ∀ m, PosPath cap s t m → p.length ≤ m) ∧
    ((bfsCapacity nodes cap adj s t).1 = false → t ≠ s →
      ∀ m, ¬ PosPath cap s t m) ∧
    (t ≠ s → ∀ v, (bfsCapacity nodes cap adj s t).2 v ≠ some t) := by
  have hbasic := bfsCapacity_basic nodes cap adj s t
  have hinit : BfsShortest cap adj nodes s t
      (fupd (fun _ => none) s (some s)) [s] (fun _ => 0) := by
    refine ⟨⟨by simp [fupd], ?_, ?_, ?_⟩, ?_, ?_, ?_, ?_, ?_, ?_, ?_, ?_⟩
    · intro v hv
      rw [List.mem_singleton] at hv
      subst hv
      simp [fupd]
    · intro v u hvu
      by_cases hvs : v = s
      · exact Or.inl hvs
      · rw [fupd_other _ _ hvs] at hvu
        exact absurd hvu (fun hh => Option.noConfusion hh)
    · intro v hv
      by_cases hvs : v = s
      · subst hvs
        exact ⟨0, [], buildPath_self _ _ _⟩
      · rw [fupd_other _ _ hvs] at hv
        exact absurd rfl hv
    · intro v hv
      by_cases hvs : v = s
      · subst hvs; exact hs
      · rw [fupd_other _ _ hvs] at hv
        exact absurd rfl hv
    · intro v hv
      by_cases hvs : v = s
      · subst hvs
        exact ⟨[], buildPath_self _ _ _, rfl⟩
      · rw [fupd_other _ _ hvs] at hv
        exact absurd rfl hv
    · intro v hv
      by_cases hvs : v = s
      · subst hvs
        exact PosPath.refl
      · rw [fupd_other _ _ hvs] at hv
        exact absurd rfl hv
    · intro v _ m _
      exact Nat.zero_le m
    · refine ⟨0, [s], [], by simp, ?_, ?_⟩
      · intro v _
        rfl
      · intro v hv
        exact absurd hv (by simp)
    · intro x hx hxq w hw
      by_cases hxs : x = s
      · subst hxs
        exact absurd (List.mem_singleton.mpr rfl) hxq
      · rw [fupd_other _ _ hxs] at hx
        exact absurd rfl hx
    · intro hts
      rw [fupd_other _ _ hts]
    · intro hts v hv
      by_cases hvs : v = s
      · subst hvs
        rw [fupd_same] at hv
        injection hv with hv
        exact hts hv.symm
      · rw [fupd_other _ _ hvs] at hv
        exact Option.noConfusion hv
  have hfuelinit : ([s] : List α).length +
      countU nodes (fupd (fun _ => none) s (some s)) ≤ nodes.length + 1 := by
    have := List.length_filter_le
      (fun v => decide (fupd (fun _ => none) s (some s) v = none)) nodes
    simp only [List.length_singleton]
    unfold countU
    omega
  obtain ⟨hfalse, htrue, hnt⟩ := bfsLoop_shortest hnd hcov hadjn
    (nodes.length + 1) [s] (fupd (fun _ => none) s (some s)) (fun _ => 0)
    hinit hfuelinit
  refine ⟨?_, ?_, ?_, ?_⟩
  · intro v u hvu
    rcases hbasic.2.1 v u hvu with h | h
    · exact Or.inl h
    · exact Or.inr h.1
  · intro hfound
    obtain ⟨hts, n, p, hbp, hlen, hminp⟩ := htrue hfound
    obtain ⟨hchain, hedges⟩ := buildPath_chain _ s n t p hbp
    have hsub : ∀ x ∈ p.map Prod.snd, x ∈ nodes := by
      intro x hx
      obtain ⟨e, he, rfl⟩ := List.mem_map.mp hx
      rcases hbasic.2.1 e.2 e.1 (hedges e he).1 with h | h
      · exact absurd h (hedges e he).2
      · exact hadjn e.1 e.2 h.2
    have hnodup := (buildPath_nodup _ s n t p hbp).1
    have hplen : p.length ≤ nodes.length := by
      have := nodup_length_le hnodup hsub
      simpa using this
    refine ⟨p, buildPath_mono_le _ s hplen (buildPath_exact n t p hbp),
      hchain, ?_, ?_⟩
    · intro e he
      rcases hbasic.2.1 e.2 e.1 (hedges e he).1 with h | h
      · exact absurd h (hedges e he).2
      · exact h.1
    · intro m hm
      rw [hlen]
      exact hminp m hm
  · intro hc hts m hm
    exact hfalse hc hts m hm
  · intro hts v
    exact hnt hts v

/-- Concrete two-edge chain graph used to instantiate the BFS contract. -/
def g3cap : Fin 3 → Fin 3 → Int :=
  fun u v => if u = 0 ∧ v = 1 then 1 else if u = 1 ∧ v = 2 then 1 else 0

/-- Adjacency lists of the two-edge chain graph. -/
def g3adj : Fin 3 → List (Fin 3) :=
  fun u => if u = 0 then [1] else if u = 1 then [2] else []

/-- Node list of the two-edge chain graph. -/
def g3nodes : List (Fin 3) := [0, 1, 2]

/-- The BFS contract instantiated on the concrete chain graph
`0 → 1 → 2`, with every hypothesis discharged by evaluation. -/
theorem c6_bfs_contract_witness :
    (g3nodes.Nodup ∧ (0 : Fin 3) ∈ g3nodes ∧
      (∀ u v, 0 < g3cap u v → v ∈ g3adj u) ∧
      (∀ u, ∀ v ∈ g3adj u, v ∈ g3nodes)) ∧
    ((∀ v u, (bfsCapacity g3nodes g3cap g3adj 0 2).2 v = some u →
      v = 0 ∨ 0 < g3cap u v) ∧
    ((bfsCapacity g3nodes g3cap g3adj 0 2).1 = true →
      ∃ p, buildPath (bfsCapacity g3nodes g3cap g3adj 0 2).2 0
          g3nodes.length 2 = some p ∧ chainOK 0 p 2 ∧
        (∀ e ∈ p, 0 < g3cap e.1 e.2) ∧
        ∀ m, PosPath g3cap 0 2 m → p.length ≤ m) ∧
    ((bfsCapacity g3nodes g3cap g3adj 0 2).1 = false → (2 : Fin 3) ≠ 0 →
      ∀ m, ¬ PosPath g3cap 0 2 m) ∧
    ((2 : Fin 3) ≠ 0 →
      ∀ v, (bfsCapacity g3nodes g3cap g3adj 0 2).2 v ≠ some 2)) :=
  ⟨⟨by decide, by decide, by decide, by decide⟩,
    c6_bfs_contract g3nodes g3cap g3adj 0 2 (by decide) (by decide)
      (by decide) (by decide)⟩

end ShortestPathClaim
